import Mathlib

/-!
Verification of the cohesion-analysis core of the eslint-plugin-code-complete
repository: the rules low-function-cohesion and low-class-cohesion.

The development shallowly embeds the two rule implementations:

* a generic graph module, mirroring the adjacency structures and the
  breadth-first connected-components search both rules use,
* the function-level rule: variable-usage accumulators, block extraction,
  pairwise Jaccard-style overlap scoring, analysis and reporting, modelled as
  a step function over traversal events,
* the class-level rule: method maps keyed by method name, member-sharing and
  call edges, and the class analysis.

Theorems at the end settle the behavioural claims about these rules.
-/

namespace CodeComplete

/-! ## Generic graph structure and breadth-first connected components

Both rules build an adjacency structure (an array `number[][]` indexed by block
index for the function rule, a `Map<string, Set<string>>` keyed by method name
for the class rule) and then run the same breadth-first search.  We model both
with association lists from keys to adjacency lists. -/

namespace Graph

variable {α : Type} [DecidableEq α]

/-- Adjacency-list lookup: `edges[a]` resp. `edges.get(a)`, empty when absent. -/
def adjOf (edges : List (α × List α)) (a : α) : List α :=
  (Option.map Prod.snd (edges.find? (fun p => decide (p.1 = a)))).getD []

/-- Record one directed edge: `edges[k].push(v)` resp. `edges.get(k).add(v)`. -/
def addEdge (edges : List (α × List α)) (k v : α) : List (α × List α) :=
  edges.map (fun p => if p.1 = k then (p.1, p.2 ++ [v]) else p)

/-- Initial adjacency structure with one empty entry per node. -/
def initEdges (nodes : List α) : List (α × List α) :=
  nodes.map (fun a => (a, []))

/-- All vertices mentioned in some adjacency list; used as the finite universe
for the termination measure of the breadth-first search. -/
def edgeUniv (edges : List (α × List α)) : Finset α :=
  (edges.flatMap Prod.snd).toFinset

lemma mem_edgeUniv_of_mem_adjOf {edges : List (α × List α)} {a b : α}
    (h : b ∈ adjOf edges a) : b ∈ edgeUniv edges := by
  unfold adjOf at h
  cases hf : edges.find? (fun p => decide (p.1 = a)) with
  | none => rw [hf] at h; simp at h
  | some p =>
    rw [hf] at h
    simp only [edgeUniv, List.mem_toFinset, List.mem_flatMap]
    exact ⟨p, List.mem_of_find?_eq_some hf, h⟩

/-- One pass of the inner `for (const neighbor of neighbors)` loop of the
breadth-first search: every not-yet-visited neighbor is marked visited and
appended to the queue. -/
def enqueueNew : List α → List α → Finset α → List α × Finset α
  | [], queue, visited => (queue, visited)
  | n :: ns, queue, visited =>
    if n ∈ visited then enqueueNew ns queue visited
    else enqueueNew ns (queue ++ [n]) (insert n visited)

lemma enqueueNew_visited_mono {ns queue : List α} {visited : Finset α} :
    visited ⊆ (enqueueNew ns queue visited).2 := by
  induction ns generalizing queue visited with
  | nil => exact fun _ h => h
  | cons n ns ih =>
    simp only [enqueueNew]
    split
    · exact ih
    · exact fun x hx => ih (Finset.mem_insert_of_mem hx)

lemma enqueueNew_measure {U : Finset α} :
    ∀ (ns queue : List α) (visited : Finset α), (∀ n ∈ ns, n ∈ U) →
    (U \ (enqueueNew ns queue visited).2).card + (enqueueNew ns queue visited).1.length ≤
      (U \ visited).card + queue.length
  | [], queue, visited, _ => by simp [enqueueNew]
  | n :: ns, queue, visited, hns => by
    by_cases hn : n ∈ visited
    · simp only [enqueueNew, if_pos hn]
      exact enqueueNew_measure ns queue visited (fun m hm => hns m (List.mem_cons_of_mem _ hm))
    · simp only [enqueueNew, if_neg hn]
      have h1 := enqueueNew_measure ns (queue ++ [n]) (insert n visited)
        (fun m hm => hns m (List.mem_cons_of_mem _ hm))
      have hn' : n ∈ U \ visited := Finset.mem_sdiff.mpr ⟨hns n (List.mem_cons_self _ _), hn⟩
      have hset : U \ insert n visited = (U \ visited).erase n := by
        ext x
        simp only [Finset.mem_sdiff, Finset.mem_insert, Finset.mem_erase]
        tauto
      have hpos : 0 < (U \ visited).card := Finset.card_pos.mpr ⟨n, hn'⟩
      have hcard : (U \ insert n visited).card + 1 = (U \ visited).card := by
        rw [hset, Finset.card_erase_of_mem hn']
        omega
      have hlen : (queue ++ [n]).length = queue.length + 1 := by simp
      omega

/-- The `while (queue.length > 0)` loop of the connected-components search:
pop the queue front, record it in the component, enqueue its unvisited
neighbors.  Returns the component in pop order and the final visited set. -/
def bfsGo (edges : List (α × List α)) (queue : List α) (visited : Finset α)
    (acc : List α) : List α × Finset α :=
  match queue with
  | [] => (acc.reverse, visited)
  | current :: rest =>
    let s := enqueueNew (adjOf edges current) rest visited
    bfsGo edges s.1 s.2 (current :: acc)
termination_by (edgeUniv edges \ visited).card + queue.length
decreasing_by
  have h := enqueueNew_measure (U := edgeUniv edges) (adjOf edges current) rest visited
    (fun n hn => mem_edgeUniv_of_mem_adjOf hn)
  simp only [List.length_cons]
  omega

/-- The outer `for` loop over all nodes: start a breadth-first search from each
node not yet visited, collecting one component per start. -/
def componentsGo (edges : List (α × List α)) : List α → Finset α → List (List α)
  | [], _ => []
  | a :: rest, visited =>
    if a ∈ visited then componentsGo edges rest visited
    else
      let r := bfsGo edges [a] (insert a visited) []
      r.1 :: componentsGo edges rest r.2

/-- Connected components of the adjacency structure, scanning `nodes` in order. -/
def componentsOf (nodes : List α) (edges : List (α × List α)) : List (List α) :=
  componentsGo edges nodes ∅

/-- Index pairs (i, j) with i < j < n, in the order of the nested
`for (i ...) for (j = i + 1 ...)` loops of the source. -/
def pairIdx (n : ℕ) : List (ℕ × ℕ) :=
  (List.range n).flatMap (fun i => ((List.range n).filter (fun j => i < j)).map (fun j => (i, j)))

/-- Build the undirected adjacency structure: for every index pair (i, j) with
i < j, when `conn i j` holds, add the edge in both directions. -/
def buildEdges [Inhabited α] (nodes : List α) (conn : ℕ → ℕ → Bool) : List (α × List α) :=
  (pairIdx nodes.length).foldl
    (fun e ij =>
      if conn ij.1 ij.2 then
        addEdge (addEdge e (nodes.getD ij.1 default) (nodes.getD ij.2 default))
          (nodes.getD ij.2 default) (nodes.getD ij.1 default)
      else e)
    (initEdges nodes)

end Graph

/-! ## Function-level rule: low-function-cohesion

Model of src/rules/low-function-cohesion.ts. -/

/-- Source span of an AST node: `node.loc.start.line` and `node.loc.end.line`. -/
structure Loc where
  startLine : ℤ
  endLine : ℤ
deriving DecidableEq, Repr

/-- Variable usage accumulator of one block scope: interface VariableUsage. -/
structure VariableUsage where
  reads : Finset String
  writes : Finset String
deriving DecidableEq

/-- A finalized code block: interface CodeBlock (the AST node reference is
dropped; only its location, used for startLine/endLine, is kept). -/
structure CodeBlock where
  vars : VariableUsage
  blockType : String
  startLine : ℤ
  endLine : ℤ
deriving DecidableEq

instance : Inhabited CodeBlock := ⟨⟨⟨∅, ∅⟩, "", 0, 0⟩⟩

/-- Per-function tracking context: interface FunctionContext. -/
structure FunctionContext where
  loc : Option Loc
  blocks : List CodeBlock
  vars : Finset String
deriving DecidableEq

/-- Overlap percentage between two blocks: combine reads and writes of each
block; if either combined set is empty the score is 100, otherwise it is the
shared-over-union ratio as a percentage. -/
def calculateOverlapPercentage (block1 block2 : CodeBlock) : ℚ :=
  let allVars1 := block1.vars.reads ∪ block1.vars.writes
  let allVars2 := block2.vars.reads ∪ block2.vars.writes
  if allVars1.card = 0 ∨ allVars2.card = 0 then 100
  else
    let sharedVars := allVars1.filter (fun v => v ∈ allVars2)
    let unionVars := allVars1 ∪ allVars2
    (sharedVars.card : ℚ) / (unionVars.card : ℚ) * 100

/-- Disconnected-group info collected per connected component:
interface DisconnectedGroup. -/
structure DisconnectedGroup where
  blockIndices : List ℕ
  sharedVariables : Finset String
  blockTypes : List String
  lineRanges : List String
deriving DecidableEq

/-- Result record of analyzeFunctionCohesion. -/
structure CohesionResult where
  isLowCohesion : Bool
  componentCount : ℕ
  averageOverlap : ℚ
  groups : List DisconnectedGroup
deriving DecidableEq

/-- The default result returned when the gates fail. -/
def defaultCohesionResult : CohesionResult :=
  { isLowCohesion := false, componentCount := 0, averageOverlap := 0, groups := [] }

/-- Edge condition between block indices i and j: their overlap percentage
meets the configured minimum. -/
def functionConn (blocks : List CodeBlock) (minSharedVariablePercentage : ℚ)
    (i j : ℕ) : Bool :=
  decide (calculateOverlapPercentage (blocks.getD i default) (blocks.getD j default) ≥
    minSharedVariablePercentage)

/-- The adjacency structure built over the block indices 0, ..., n-1. -/
def functionEdges (blocks : List CodeBlock) (minSharedVariablePercentage : ℚ) :
    List (ℕ × List ℕ) :=
  Graph.buildEdges (List.range blocks.length) (functionConn blocks minSharedVariablePercentage)

/-- Connected components of the block graph, as index lists in discovery order. -/
def functionComponents (blocks : List CodeBlock) (minSharedVariablePercentage : ℚ) :
    List (List ℕ) :=
  Graph.componentsOf (List.range blocks.length)
    (functionEdges blocks minSharedVariablePercentage)

/-- Group details collected for one connected component. -/
def mkGroup (blocks : List CodeBlock) (g : List ℕ) : DisconnectedGroup :=
  { blockIndices := g
    sharedVariables := g.foldl (fun s idx =>
        s ∪ (blocks.getD idx default).vars.reads ∪
          (blocks.getD idx default).vars.writes) ∅
    blockTypes := g.map (fun idx => (blocks.getD idx default).blockType)
    lineRanges := g.map (fun idx =>
        toString (blocks.getD idx default).startLine ++ "-" ++
          toString (blocks.getD idx default).endLine) }

/-- Cohesion analysis of one finalized function context: size gate, block-count
gate, pairwise overlap scores, adjacency graph, connected components, verdict. -/
def analyzeFunctionCohesion (minSharedVariablePercentage : ℚ) (minFunctionLength : ℤ)
    (functionContext : FunctionContext) : CohesionResult :=
  match functionContext.loc with
  | none => defaultCohesionResult
  | some loc =>
    let functionLength := loc.endLine - loc.startLine + 1
    if functionLength < minFunctionLength then defaultCohesionResult
    else if functionContext.blocks.length < 2 then defaultCohesionResult
    else
      let n := functionContext.blocks.length
      let overlapOf := fun (ij : ℕ × ℕ) =>
        calculateOverlapPercentage (functionContext.blocks.getD ij.1 default)
          (functionContext.blocks.getD ij.2 default)
      let totalOverlap := ((Graph.pairIdx n).map overlapOf).sum
      let pairCount := (Graph.pairIdx n).length
      let groups := (functionComponents functionContext.blocks minSharedVariablePercentage).map
        (mkGroup functionContext.blocks)
      { isLowCohesion := decide (groups.length > 1)
        componentCount := groups.length
        averageOverlap :=
          if pairCount > 0 then ((round (totalOverlap / (pairCount : ℚ) * 10) : ℤ) : ℚ) / 10 else 0
        groups := groups }

/-! ### Traversal state machine of the function-level rule

The rule listener reacts to enter/exit events of functions and control
structures and to identifier events.  We model the listener as a step function
over an event alphabet; the classification of an identifier occurrence by its
syntactic parent (member-property position, declarator id, assignment target,
parameter, anything else) is carried on the event. -/

/-- Syntactic position of an identifier relative to its parent node, as
inspected by the Identifier handler. -/
inductive ParentKind where
  | memberProp
  | declaratorId
  | assignLeft
  | param
  | other
deriving DecidableEq

/-- Traversal events consumed by the function-level rule listener. -/
inductive FnEvent where
  | funcEnter (loc : Option Loc)
  | funcExit
  | blockEnter
  | blockExit (blockType : String) (loc : Option Loc)
  | ident (name : String) (parent : ParentKind)

/-- A reported finding of the function-level rule. -/
structure Report where
  componentCount : ℕ
  averageOverlap : ℚ
  minSharedVariablePercentage : ℚ
deriving DecidableEq

/-- Mutable listener state: the function-context stack, the block-accumulator
stack, and the findings reported so far.  The head of each list is the top of
the corresponding stack. -/
structure RuleState where
  functionStack : List FunctionContext
  blockStack : List VariableUsage
  reports : List Report
deriving DecidableEq

/-- Transition of the rule listener on one traversal event; each branch mirrors
the corresponding handler of the source. -/
def ruleStep (minSharedVariablePercentage : ℚ) (minFunctionLength : ℤ)
    (st : RuleState) : FnEvent → RuleState
  | .funcEnter loc =>
    { st with
      functionStack := { loc := loc, blocks := [], vars := ∅ } :: st.functionStack
      blockStack := { reads := ∅, writes := ∅ } :: st.blockStack }
  | .funcExit =>
    match st.functionStack with
    | [] => st
    | currentFunction :: rest =>
      let st' := { st with functionStack := rest, blockStack := st.blockStack.tail }
      let analysis :=
        analyzeFunctionCohesion minSharedVariablePercentage minFunctionLength currentFunction
      if analysis.isLowCohesion then
        { st' with reports := st'.reports ++
            [{ componentCount := analysis.componentCount
               averageOverlap := analysis.averageOverlap
               minSharedVariablePercentage := minSharedVariablePercentage }] }
      else st'
  | .blockEnter =>
    if st.functionStack.length = 0 then st
    else { st with blockStack := { reads := ∅, writes := ∅ } :: st.blockStack }
  | .blockExit blockType loc =>
    if st.functionStack.length = 0 ∨ st.blockStack.length ≤ 1 then st
    else
      match st.blockStack with
      | [] => st
      | blockUsage :: blockRest =>
        let st' := { st with blockStack := blockRest }
        if blockUsage.reads.card = 0 ∧ blockUsage.writes.card = 0 then st'
        else
          match st'.functionStack with
          | [] => st'
          | f :: fs =>
            { st' with functionStack :=
                { f with blocks := f.blocks ++
                    [{ vars := { reads := blockUsage.reads, writes := blockUsage.writes }
                       blockType := blockType
                       startLine := (loc.map Loc.startLine).getD 0
                       endLine := (loc.map Loc.endLine).getD 0 }] } :: fs }
  | .ident name parent =>
    if st.functionStack.length = 0 ∨ st.blockStack.length = 0 ∨ name = "" then st
    else
      match st.functionStack, st.blockStack with
      | f :: fs, b :: bs =>
        if parent = .memberProp then st
        else
          let f' := { f with vars := insert name f.vars }
          if parent = .declaratorId ∨ parent = .assignLeft ∨ parent = .param then
            { st with functionStack := f' :: fs
                      blockStack := { b with writes := insert name b.writes } :: bs }
          else
            { st with functionStack := f' :: fs
                      blockStack := { b with reads := insert name b.reads } :: bs }
      | _, _ => st

/-- Initial listener state at the start of a file traversal. -/
def initialRuleState : RuleState :=
  { functionStack := [], blockStack := [], reports := [] }

/-- Run the function-level rule listener over a whole event sequence. -/
def runRule (minSharedVariablePercentage : ℚ) (minFunctionLength : ℤ)
    (events : List FnEvent) : RuleState :=
  events.foldl (ruleStep minSharedVariablePercentage minFunctionLength) initialRuleState

/-! ## Class-level rule: low-class-cohesion

Model of src/rules/low-class-cohesion.ts.  A class body is a sequence of
method definitions; each carries its `kind`, its optional key name, and the
sequence of member names accessed through `this` inside its body.  Methods are
collected into a `Map<string, MethodInfo>` keyed by method name, modelled as an
insertion-ordered association list with replace-on-existing-key update. -/

/-- One MethodDefinition of a class body together with the member accesses
through `this` made while it is the current method. -/
structure MethodRecord where
  kind : String
  keyName : Option String
  accesses : List String
deriving DecidableEq

/-- Method name selection: `node.key && node.key.name ? node.key.name :
the anonymous fallback` (a falsy empty name also falls back). -/
def methodNameOf (r : MethodRecord) : String :=
  match r.keyName with
  | some s => if s = "" then "anonymous" else s
  | none => "anonymous"

/-- Build the usedMembers set by adding each accessed member name in order. -/
def usedMembersOf (accesses : List String) : Finset String :=
  accesses.foldl (fun s m => insert m s) ∅

/-- `Map.set` semantics: replace the value at an existing key in place,
otherwise append a new entry. -/
def mapSet (m : List (String × Finset String)) (k : String) (v : Finset String) :
    List (String × Finset String) :=
  if m.any (fun p => decide (p.1 = k)) then
    m.map (fun p => if p.1 = k then (k, v) else p)
  else m ++ [(k, v)]

/-- The MethodDefinition handler over one class body: skip constructors, store
every other method into the map keyed by its method name. -/
def collectMethods (records : List MethodRecord) : List (String × Finset String) :=
  records.foldl
    (fun methods r =>
      if r.kind = "constructor" then methods
      else mapSet methods (methodNameOf r) (usedMembersOf r.accesses))
    []

/-- Class tracking context: interface ClassContext (node location plus the
methods map). -/
structure ClassContext where
  loc : Option Loc
  methods : List (String × Finset String)
deriving DecidableEq

/-- `classContext.methods.get(name)`: the usedMembers set stored at a name. -/
def lookupMethod (methods : List (String × Finset String)) (name : String) : Finset String :=
  ((methods.find? (fun p => decide (p.1 = name))).map Prod.snd).getD ∅

/-- Edge condition between the methods at positions i and j of the method-name
list: they share some member, or either one uses the name of the other. -/
def classConn (methods : List (String × Finset String)) (methodNames : List String)
    (i j : ℕ) : Bool :=
  let method1 := lookupMethod methods (methodNames.getD i "")
  let method2 := lookupMethod methods (methodNames.getD j "")
  let sharedMembers := method1.filter (fun member => member ∈ method2)
  decide (0 < sharedMembers.card) || decide (methodNames.getD j "" ∈ method1) ||
    decide (methodNames.getD i "" ∈ method2)

/-- The adjacency structure over the method names of a class context. -/
def classEdges (classContext : ClassContext) : List (String × List String) :=
  Graph.buildEdges (classContext.methods.map Prod.fst)
    (classConn classContext.methods (classContext.methods.map Prod.fst))

/-- Result record of analyzeClassCohesion. -/
structure ClassCohesionResult where
  isLowCohesion : Bool
  componentCount : ℕ
deriving DecidableEq

/-- Cohesion analysis of one class context: size gate, method-count gate,
member-sharing and call edges, connected components, verdict. -/
def analyzeClassCohesion (minClassLength : ℤ) (classContext : ClassContext) :
    ClassCohesionResult :=
  match classContext.loc with
  | none => { isLowCohesion := false, componentCount := 0 }
  | some loc =>
    let classLength := loc.endLine - loc.startLine + 1
    if classLength < minClassLength then { isLowCohesion := false, componentCount := 0 }
    else if classContext.methods.length < 2 then { isLowCohesion := false, componentCount := 0 }
    else
      let methodNames := classContext.methods.map Prod.fst
      let componentCount :=
        (Graph.componentsOf methodNames (classEdges classContext)).length
      { isLowCohesion := decide (componentCount > 1), componentCount := componentCount }

/-- Modelled from the spec: the §3/§4.4 overlap score on two usedMembers sets
(100 when either set is empty, otherwise the Jaccard percentage). -/
def specOverlapScore (A B : Finset String) : ℚ :=
  if A = ∅ ∨ B = ∅ then 100
  else ((A ∩ B).card : ℚ) / ((A ∪ B).card : ℚ) * 100

/-- Modelled from the spec: the class-level edge condition as claim C1 states
it — the Jaccard-style score meets minSharedPropertyPercentage, or one method
uses the name of the other. -/
def specClassEdge (minSharedPropertyPercentage : ℚ) (m1 m2 : Finset String)
    (name1 name2 : String) : Prop :=
  specOverlapScore m1 m2 ≥ minSharedPropertyPercentage ∨ name2 ∈ m1 ∨ name1 ∈ m2

/-- Listener state of the class-level rule around class exit: the class stack
and the componentCount values reported so far. -/
structure ClassRuleState where
  classStack : List ClassContext
  reports : List ℕ
deriving DecidableEq

/-- The ClassDeclaration (resp. ClassExpression) exit handler: pop the class
context, analyze it, and report when the analysis flags low cohesion. -/
def classExit (minClassLength : ℤ) (st : ClassRuleState) : ClassRuleState :=
  match st.classStack with
  | [] => st
  | classContext :: rest =>
    let analysis := analyzeClassCohesion minClassLength classContext
    if analysis.isLowCohesion then
      { classStack := rest, reports := st.reports ++ [analysis.componentCount] }
    else { classStack := rest, reports := st.reports }

namespace Graph

variable {α : Type} [DecidableEq α]

/-- Adjacency relation induced by an adjacency structure. -/
def adjRel (edges : List (α × List α)) (a b : α) : Prop :=
  b ∈ adjOf edges a

/-- Ghost fingerprint used only in proofs: the set of vertices of `U` reachable
from `a` along adjacency steps. -/
noncomputable def reachClass (edges : List (α × List α)) (U : Finset α) (a : α) : Finset α :=
  @Finset.filter _ (fun b => Relation.ReflTransGen (adjRel edges) a b) (Classical.decPred _) U

end Graph

/-! ### Concrete inputs used by witnesses and counterexamples -/

/-- Chain example, block A: reads x and y. -/
def blkA : CodeBlock := { vars := { reads := {"x", "y"}, writes := ∅ }, blockType := "if", startLine := 2, endLine := 4 }

/-- Chain example, block B: reads x and z. -/
def blkB : CodeBlock := { vars := { reads := {"x", "z"}, writes := ∅ }, blockType := "if", startLine := 5, endLine := 7 }

/-- Chain example, block C: reads z and w. -/
def blkC : CodeBlock := { vars := { reads := {"z", "w"}, writes := ∅ }, blockType := "if", startLine := 8, endLine := 10 }

/-- Block with no captured signal at all. -/
def blkEmpty : CodeBlock := { vars := { reads := ∅, writes := ∅ }, blockType := "if", startLine := 3, endLine := 4 }

/-- A 12-line function owning the chain blocks A, B, C. -/
def chainCtx : FunctionContext := { loc := some { startLine := 1, endLine := 12 }, blocks := [blkA, blkB, blkC], vars := ∅ }

/-- Class context with two methods sharing exactly one member out of three:
the Jaccard score is 100/3 < 40 yet the code draws an edge. -/
def c1Ctx : ClassContext := { loc := some { startLine := 1, endLine := 12 }, methods := [("m1", {"a", "b", "c"}), ("m2", {"a"})] }

/-- Class body with two methods sharing member a and one method using no
members at all. -/
def c2Records : List MethodRecord :=
  [ { kind := "method", keyName := some "m1", accesses := ["a"] },
    { kind := "method", keyName := some "m2", accesses := ["a"] },
    { kind := "method", keyName := some "m3", accesses := [] } ]

/-- The class context collected from c2Records, 12 lines long. -/
def c2Ctx : ClassContext := { loc := some { startLine := 1, endLine := 12 }, methods := collectMethods c2Records }

/-- Raw map lookup: `methods.get(name)` before the non-null assertion. -/
def lookupMethodOpt (methods : List (String × Finset String)) (name : String) :
    Option (Finset String) :=
  (methods.find? (fun p => decide (p.1 = name))).map Prod.snd

/-- The last non-constructor method record of a class body carrying a given
method name, if any. -/
def lastNonConstructorNamed (records : List MethodRecord) (name : String) :
    Option MethodRecord :=
  (records.filter (fun r => decide (r.kind ≠ "constructor" ∧ methodNameOf r = name))).getLast?

end CodeComplete

namespace CodeComplete
namespace Graph

variable {α : Type} [DecidableEq α]

lemma mem_fst_enqueueNew {ns queue : List α} {visited : Finset α} {x : α}
    (h : x ∈ (enqueueNew ns queue visited).1) : x ∈ queue ∨ x ∈ ns := by
  induction ns generalizing queue visited with
  | nil => simp [enqueueNew] at h; exact Or.inl h
  | cons n ns ih =>
    simp only [enqueueNew] at h
    split at h
    · rcases ih h with h1 | h1
      · exact Or.inl h1
      · exact Or.inr (List.mem_cons_of_mem _ h1)
    · rcases ih h with h1 | h1
      · rcases List.mem_append.mp h1 with h2 | h2
        · exact Or.inl h2
        · simp at h2; subst h2; exact Or.inr (List.mem_cons_self _ _)
      · exact Or.inr (List.mem_cons_of_mem _ h1)

lemma mem_fst_enqueueNew_strong {ns queue : List α} {visited : Finset α} {x : α}
    (h : x ∈ (enqueueNew ns queue visited).1) : x ∈ queue ∨ (x ∈ ns ∧ x ∉ visited) := by
  induction ns generalizing queue visited with
  | nil => simp [enqueueNew] at h; exact Or.inl h
  | cons n ns ih =>
    simp only [enqueueNew] at h
    split at h
    · rcases ih h with h1 | ⟨h1, h2⟩
      · exact Or.inl h1
      · exact Or.inr ⟨List.mem_cons_of_mem _ h1, h2⟩
    · rename_i hn
      rcases ih h with h1 | ⟨h1, h2⟩
      · rcases List.mem_append.mp h1 with h2 | h2
        · exact Or.inl h2
        · simp at h2; subst h2; exact Or.inr ⟨List.mem_cons_self _ _, hn⟩
      · refine Or.inr ⟨List.mem_cons_of_mem _ h1, fun hx => h2 (Finset.mem_insert_of_mem hx)⟩

lemma queue_subset_enqueueNew {ns queue : List α} {visited : Finset α} {x : α}
    (h : x ∈ queue) : x ∈ (enqueueNew ns queue visited).1 := by
  induction ns generalizing queue visited with
  | nil => simpa [enqueueNew]
  | cons n ns ih =>
    simp only [enqueueNew]
    split
    · exact ih h
    · exact ih (List.mem_append.mpr (Or.inl h))

lemma mem_snd_enqueueNew {ns queue : List α} {visited : Finset α} {x : α}
    (h : x ∈ (enqueueNew ns queue visited).2) : x ∈ visited ∨ x ∈ ns := by
  induction ns generalizing queue visited with
  | nil => simp [enqueueNew] at h; exact Or.inl h
  | cons n ns ih =>
    simp only [enqueueNew] at h
    split at h
    · rcases ih h with h1 | h1
      · exact Or.inl h1
      · exact Or.inr (List.mem_cons_of_mem _ h1)
    · rcases ih h with h1 | h1
      · rcases Finset.mem_insert.mp h1 with h2 | h2
        · subst h2; exact Or.inr (List.mem_cons_self _ _)
        · exact Or.inl h2
      · exact Or.inr (List.mem_cons_of_mem _ h1)

lemma snd_to_fst_enqueueNew {ns queue : List α} {visited : Finset α} {x : α}
    (h : x ∈ (enqueueNew ns queue visited).2) :
    x ∈ visited ∨ x ∈ (enqueueNew ns queue visited).1 := by
  induction ns generalizing queue visited with
  | nil => simp [enqueueNew] at h ⊢; exact Or.inl h
  | cons n ns ih =>
    simp only [enqueueNew] at h ⊢
    split at h <;> rename_i hn
    · rw [if_pos hn]
      exact ih h
    · rw [if_neg hn]
      rcases ih h with h1 | h1
      · rcases Finset.mem_insert.mp h1 with h2 | h2
        · subst h2
          exact Or.inr (queue_subset_enqueueNew (List.mem_append.mpr (Or.inr (List.mem_singleton.mpr rfl))))
        · exact Or.inl h2
      · exact Or.inr h1

lemma ns_subset_snd_enqueueNew {ns queue : List α} {visited : Finset α} {x : α}
    (h : x ∈ ns) : x ∈ (enqueueNew ns queue visited).2 := by
  induction ns generalizing queue visited with
  | nil => cases h
  | cons n ns ih =>
    simp only [enqueueNew]
    rcases List.mem_cons.mp h with h1 | h1
    · subst h1
      split
      · rename_i hn; exact enqueueNew_visited_mono hn
      · exact enqueueNew_visited_mono (Finset.mem_insert_self _ _)
    · split
      · exact ih h1
      · exact ih h1

lemma fst_subset_snd_enqueueNew {ns queue : List α} {visited : Finset α}
    (hq : ∀ x ∈ queue, x ∈ visited) :
    ∀ x ∈ (enqueueNew ns queue visited).1, x ∈ (enqueueNew ns queue visited).2 := by
  induction ns generalizing queue visited with
  | nil => simpa [enqueueNew]
  | cons n ns ih =>
    simp only [enqueueNew]
    split
    · exact ih hq
    · refine ih (fun x hx => ?_)
      rcases List.mem_append.mp hx with h1 | h1
      · exact Finset.mem_insert_of_mem (hq x h1)
      · simp at h1; subst h1; exact Finset.mem_insert_self _ _

/-! ### Stack-level invariants of the breadth-first search -/

lemma bfsGo_visited_mono (edges : List (α × List α)) (q : List α) (v : Finset α) (a : List α) :
    v ⊆ (bfsGo edges q v a).2 := by
  induction q, v, a using bfsGo.induct edges with
  | case1 v a => simp [bfsGo]
  | case2 v a c rest s =>
    rename_i ih
    rw [bfsGo]
    exact fun x hx => ih (enqueueNew_visited_mono hx)

lemma bfsGo_mem_of_queue_or_acc (edges : List (α × List α)) (q : List α) (v : Finset α)
    (a : List α) : ∀ x, x ∈ q ∨ x ∈ a → x ∈ (bfsGo edges q v a).1 := by
  induction q, v, a using bfsGo.induct edges with
  | case1 v a =>
    intro x hx
    rcases hx with hx | hx
    · cases hx
    · simpa [bfsGo] using hx
  | case2 v a c rest s =>
    rename_i ih
    intro x hx
    rw [bfsGo]
    rcases hx with hx | hx
    · rcases List.mem_cons.mp hx with h1 | h1
      · exact ih x (Or.inr (h1 ▸ List.mem_cons_self _ _))
      · exact ih x (Or.inl (queue_subset_enqueueNew h1))
    · exact ih x (Or.inr (List.mem_cons_of_mem _ hx))

lemma bfsGo_group_src (edges : List (α × List α)) (q : List α) (v : Finset α) (a : List α) :
    ∀ x ∈ (bfsGo edges q v a).1, x ∈ a ∨ x ∈ q ∨ x ∉ v := by
  induction q, v, a using bfsGo.induct edges with
  | case1 v a =>
    intro x hx
    simp only [bfsGo, List.mem_reverse] at hx
    exact Or.inl hx
  | case2 v a c rest s =>
    rename_i ih
    intro x hx
    rw [bfsGo] at hx
    rcases ih x hx with h1 | h1 | h1
    · rcases List.mem_cons.mp h1 with h2 | h2
      · exact Or.inr (Or.inl (h2 ▸ List.mem_cons_self _ _))
      · exact Or.inl h2
    · rcases mem_fst_enqueueNew_strong h1 with h2 | ⟨_, h2⟩
      · exact Or.inr (Or.inl (List.mem_cons_of_mem _ h2))
      · exact Or.inr (Or.inr h2)
    · exact Or.inr (Or.inr (fun hv => h1 (enqueueNew_visited_mono hv)))

lemma bfsGo_group_src_adj (edges : List (α × List α)) (q : List α) (v : Finset α) (a : List α) :
    ∀ x ∈ (bfsGo edges q v a).1, x ∈ a ∨ x ∈ q ∨ ∃ c, x ∈ adjOf edges c := by
  induction q, v, a using bfsGo.induct edges with
  | case1 v a =>
    intro x hx
    simp only [bfsGo, List.mem_reverse] at hx
    exact Or.inl hx
  | case2 v a c rest s =>
    rename_i ih
    intro x hx
    rw [bfsGo] at hx
    rcases ih x hx with h1 | h1 | h1
    · rcases List.mem_cons.mp h1 with h2 | h2
      · exact Or.inr (Or.inl (h2 ▸ List.mem_cons_self _ _))
      · exact Or.inl h2
    · rcases mem_fst_enqueueNew h1 with h2 | h2
      · exact Or.inr (Or.inl (List.mem_cons_of_mem _ h2))
      · exact Or.inr (Or.inr ⟨c, h2⟩)
    · exact Or.inr (Or.inr h1)

lemma bfsGo_group_subset_visited (edges : List (α × List α)) (q : List α) (v : Finset α)
    (a : List α) (hq : ∀ x ∈ q, x ∈ v) (ha : ∀ x ∈ a, x ∈ v) :
    ∀ x ∈ (bfsGo edges q v a).1, x ∈ (bfsGo edges q v a).2 := by
  induction q, v, a using bfsGo.induct edges with
  | case1 v a =>
    intro x hx
    simp only [bfsGo, List.mem_reverse] at hx ⊢
    exact ha x hx
  | case2 v a c rest s =>
    rename_i ih
    intro x hx
    rw [bfsGo] at hx ⊢
    refine ih ?_ ?_ x hx
    · exact fst_subset_snd_enqueueNew (fun y hy => hq y (List.mem_cons_of_mem _ hy))
    · intro y hy
      rcases List.mem_cons.mp hy with h1 | h1
      · exact enqueueNew_visited_mono (h1 ▸ hq c (List.mem_cons_self _ _))
      · exact enqueueNew_visited_mono (ha y h1)

lemma bfsGo_visited_src (edges : List (α × List α)) (q : List α) (v : Finset α) (a : List α) :
    ∀ x ∈ (bfsGo edges q v a).2, x ∈ v ∨ x ∈ (bfsGo edges q v a).1 := by
  induction q, v, a using bfsGo.induct edges with
  | case1 v a =>
    intro x hx
    simp only [bfsGo] at hx ⊢
    exact Or.inl hx
  | case2 v a c rest s =>
    rename_i ih
    intro x hx
    rw [bfsGo] at hx ⊢
    rcases ih x hx with h1 | h1
    · rcases snd_to_fst_enqueueNew h1 with h2 | h2
      · exact Or.inl h2
      · exact Or.inr (bfsGo_mem_of_queue_or_acc edges _ _ _ x (Or.inl h2))
    · exact Or.inr h1

end Graph
end CodeComplete

namespace CodeComplete
namespace Graph

variable {α : Type} [DecidableEq α]

/-! ### Partition properties of the connected-components computation -/

lemma componentsGo_not_in_visited (edges : List (α × List α)) :
    ∀ (nodes : List α) (visited : Finset α),
      ∀ g ∈ componentsGo edges nodes visited, ∀ x ∈ g, x ∉ visited := by
  intro nodes
  induction nodes with
  | nil => intro visited g hg; cases hg
  | cons a rest ih =>
    intro visited g hg x hx
    simp only [componentsGo] at hg
    split at hg
    · exact ih visited g hg x hx
    · rename_i ha
      rcases List.mem_cons.mp hg with h1 | h1
      · subst h1
        rcases bfsGo_group_src edges [a] (insert a visited) [] x hx with h2 | h2 | h2
        · cases h2
        · simp at h2; subst h2; exact ha
        · exact fun hv => h2 (Finset.mem_insert_of_mem hv)
      · intro hv
        exact ih _ g h1 x hx
          (bfsGo_visited_mono edges [a] (insert a visited) [] (Finset.mem_insert_of_mem hv))

lemma componentsGo_exhaustive (edges : List (α × List α)) :
    ∀ (nodes : List α) (visited : Finset α), ∀ x ∈ nodes,
      x ∈ visited ∨ ∃ g ∈ componentsGo edges nodes visited, x ∈ g := by
  intro nodes
  induction nodes with
  | nil => intro visited x hx; cases hx
  | cons a rest ih =>
    intro visited x hx
    simp only [componentsGo]
    split
    · rename_i ha
      rcases List.mem_cons.mp hx with h1 | h1
      · subst h1; exact Or.inl ha
      · exact ih visited x h1
    · rename_i ha
      rcases List.mem_cons.mp hx with h1 | h1
      · exact Or.inr ⟨_, List.mem_cons_self _ _,
          bfsGo_mem_of_queue_or_acc edges [a] (insert a visited) [] x
            (Or.inl (List.mem_singleton.mpr h1))⟩
      · rcases ih (bfsGo edges [a] (insert a visited) []).2 x h1 with h2 | ⟨g, hg, hxg⟩
        · rcases bfsGo_visited_src edges [a] (insert a visited) [] x h2 with h3 | h3
          · rcases Finset.mem_insert.mp h3 with h4 | h4
            · exact Or.inr ⟨_, List.mem_cons_self _ _,
                bfsGo_mem_of_queue_or_acc edges [a] (insert a visited) [] x
                  (Or.inl (List.mem_singleton.mpr h4))⟩
            · exact Or.inl h4
          · exact Or.inr ⟨_, List.mem_cons_self _ _, h3⟩
        · exact Or.inr ⟨g, List.mem_cons_of_mem _ hg, hxg⟩

lemma componentsGo_countP_le_one (edges : List (α × List α)) :
    ∀ (nodes : List α) (visited : Finset α) (x : α),
      (componentsGo edges nodes visited).countP (fun g => decide (x ∈ g)) ≤ 1 := by
  intro nodes
  induction nodes with
  | nil => intro visited x; simp [componentsGo]
  | cons a rest ih =>
    intro visited x
    simp only [componentsGo]
    split
    · exact ih visited x
    · rw [List.countP_cons]
      by_cases hx : x ∈ (bfsGo edges [a] (insert a visited) []).1
      · have hx2 : x ∈ (bfsGo edges [a] (insert a visited) []).2 :=
          bfsGo_group_subset_visited edges [a] (insert a visited) []
            (by intro y hy; simp at hy; subst hy; exact Finset.mem_insert_self _ _)
            (by intro y hy; cases hy) x hx
        have hzero : (componentsGo edges rest (bfsGo edges [a] (insert a visited) []).2).countP
            (fun g => decide (x ∈ g)) = 0 := by
          rw [List.countP_eq_zero]
          intro g hg
          simp only [decide_eq_true_eq]
          exact fun hxg => componentsGo_not_in_visited edges rest _ g hg x hxg hx2
        have hdec : (decide (x ∈ (bfsGo edges [a] (insert a visited) []).1) : Bool) = true := by
          simpa using hx
        rw [hdec, hzero]
        simp
      · have : (decide (x ∈ (bfsGo edges [a] (insert a visited) []).1) : Bool) = false := by
          simpa using hx
        rw [this]
        simpa using ih _ x

lemma componentsGo_mem_src (edges : List (α × List α)) :
    ∀ (nodes : List α) (visited : Finset α),
      ∀ g ∈ componentsGo edges nodes visited, ∀ x ∈ g,
        x ∈ nodes ∨ ∃ c, x ∈ adjOf edges c := by
  intro nodes
  induction nodes with
  | nil => intro visited g hg; cases hg
  | cons a rest ih =>
    intro visited g hg x hx
    simp only [componentsGo] at hg
    split at hg
    · rcases ih visited g hg x hx with h1 | h1
      · exact Or.inl (List.mem_cons_of_mem _ h1)
      · exact Or.inr h1
    · rcases List.mem_cons.mp hg with h1 | h1
      · subst h1
        rcases bfsGo_group_src_adj edges [a] (insert a visited) [] x hx with h2 | h2 | h2
        · cases h2
        · simp at h2; subst h2; exact Or.inl (List.mem_cons_self _ _)
        · exact Or.inr h2
      · rcases ih _ g h1 x hx with h2 | h2
        · exact Or.inl (List.mem_cons_of_mem _ h2)
        · exact Or.inr h2

/-- Partition property: when every adjacency target is itself a node, every
node lies in exactly one component and components only contain nodes. -/
theorem componentsOf_partition (nodes : List α) (edges : List (α × List α))
    (hcl : ∀ a b, b ∈ adjOf edges a → b ∈ nodes) :
    (∀ x ∈ nodes, (componentsOf nodes edges).countP (fun g => decide (x ∈ g)) = 1) ∧
      (∀ g ∈ componentsOf nodes edges, ∀ x ∈ g, x ∈ nodes) := by
  constructor
  · intro x hx
    have hle := componentsGo_countP_le_one edges nodes ∅ x
    have hpos : 0 < (componentsOf nodes edges).countP (fun g => decide (x ∈ g)) := by
      rcases componentsGo_exhaustive edges nodes ∅ x hx with h1 | ⟨g, hg, hxg⟩
      · cases h1
      · rw [List.countP_pos_iff]
        exact ⟨g, hg, by simpa using hxg⟩
    unfold componentsOf at hpos ⊢
    omega
  · intro g hg x hx
    rcases componentsGo_mem_src edges nodes ∅ g hg x hx with h1 | ⟨c, hc⟩
    · exact h1
    · exact hcl c x hc

end Graph
end CodeComplete
namespace CodeComplete
namespace Graph

variable {α : Type} [DecidableEq α]

/-! ### Characterization of the built adjacency structure -/

lemma keys_addEdge (e : List (α × List α)) (k v : α) :
    (addEdge e k v).map Prod.fst = e.map Prod.fst := by
  unfold addEdge
  rw [List.map_map]
  refine List.map_congr_left ?_
  intro p _
  by_cases h : p.1 = k <;> simp [h]

omit [DecidableEq α] in
lemma keys_initEdges (nodes : List α) : (initEdges nodes).map Prod.fst = nodes := by
  induction nodes with
  | nil => rfl
  | cons a l ih => simpa [initEdges] using ih

lemma adjOf_initEdges (nodes : List α) (a : α) : adjOf (initEdges nodes) a = [] := by
  unfold adjOf
  cases hf : (initEdges nodes).find? (fun p => decide (p.1 = a)) with
  | none => simp
  | some p =>
    have hp := List.mem_of_find?_eq_some hf
    simp only [initEdges, List.mem_map] at hp
    obtain ⟨b, _, hbp⟩ := hp
    simp [← hbp]

lemma adjOf_cons (p : α × List α) (ps : List (α × List α)) (a : α) :
    adjOf (p :: ps) a = if p.1 = a then p.2 else adjOf ps a := by
  unfold adjOf
  by_cases h : p.1 = a
  · rw [List.find?_cons_of_pos _ (by simp [h]), if_pos h]
    simp
  · rw [List.find?_cons_of_neg _ (by simp [h]), if_neg h]

lemma adjOf_addEdge (e : List (α × List α)) (k v a : α) :
    adjOf (addEdge e k v) a =
      if a = k ∧ k ∈ e.map Prod.fst then adjOf e a ++ [v] else adjOf e a := by
  induction e with
  | nil => simp [addEdge, adjOf]
  | cons p ps ih =>
    have hcons : addEdge (p :: ps) k v =
        (if p.1 = k then (p.1, p.2 ++ [v]) else p) :: addEdge ps k v := rfl
    rw [hcons]
    by_cases hpk : p.1 = k
    · rw [if_pos hpk, adjOf_cons, adjOf_cons]
      by_cases hpa : p.1 = a
      · have hak : a = k := by rw [← hpa, hpk]
        have hc : a = k ∧ k ∈ (p :: ps).map Prod.fst :=
          ⟨hak, List.mem_map.mpr ⟨p, List.mem_cons_self _ _, hpk⟩⟩
        simp only [if_pos hpa, if_pos hc]
      · have hak : ¬a = k := fun h => hpa (by rw [hpk, ← h])
        simp only [if_neg hpa]
        rw [ih, if_neg (fun h => hak h.1), if_neg (fun h => hak h.1)]
    · rw [if_neg hpk, adjOf_cons, adjOf_cons]
      by_cases hpa : p.1 = a
      · have hak : ¬a = k := fun h => hpk (by rw [hpa, h])
        simp only [if_pos hpa]
        rw [if_neg (fun h => hak h.1)]
      · simp only [if_neg hpa]
        rw [ih]
        have hmem : k ∈ (p :: ps).map Prod.fst ↔ k ∈ ps.map Prod.fst := by
          simp only [List.map_cons, List.mem_cons]
          constructor
          · rintro (h | h)
            · exact absurd h.symm hpk
            · exact h
          · exact Or.inr
        by_cases hk : a = k ∧ k ∈ ps.map Prod.fst
        · rw [if_pos hk, if_pos ⟨hk.1, hmem.mpr hk.2⟩]
        · rw [if_neg hk, if_neg (fun h => hk ⟨h.1, hmem.mp h.2⟩)]

lemma mem_pairIdx {n : ℕ} {ij : ℕ × ℕ} : ij ∈ pairIdx n ↔ ij.1 < ij.2 ∧ ij.2 < n := by
  cases ij with
  | mk i j =>
    simp only [pairIdx, List.mem_flatMap, List.mem_map, List.mem_filter, List.mem_range,
      decide_eq_true_eq, Prod.mk.injEq]
    constructor
    · rintro ⟨i1, hi1, j1, ⟨hj1, hij1⟩, heq1, heq2⟩
      omega
    · rintro ⟨h1, h2⟩
      exact ⟨i, by omega, j, ⟨by omega, h1⟩, rfl, rfl⟩

lemma keys_buildEdges_foldl (nodes : List α) [Inhabited α] (conn : ℕ → ℕ → Bool) :
    ∀ (ps : List (ℕ × ℕ)) (e : List (α × List α)),
      ((ps.foldl (fun e ij =>
        if conn ij.1 ij.2 then
          addEdge (addEdge e (nodes.getD ij.1 default) (nodes.getD ij.2 default))
            (nodes.getD ij.2 default) (nodes.getD ij.1 default)
        else e) e).map Prod.fst) = e.map Prod.fst := by
  intro ps
  induction ps with
  | nil => intro e; rfl
  | cons ij ps ih =>
    intro e
    rw [List.foldl_cons, ih]
    split
    · rw [keys_addEdge, keys_addEdge]
    · rfl

lemma keys_buildEdges (nodes : List α) [Inhabited α] (conn : ℕ → ℕ → Bool) :
    (buildEdges nodes conn).map Prod.fst = nodes := by
  unfold buildEdges
  rw [keys_buildEdges_foldl, keys_initEdges]

lemma mem_adjOf_buildEdges_aux (nodes : List α) [Inhabited α] (conn : ℕ → ℕ → Bool) :
    ∀ (ps : List (ℕ × ℕ)) (e : List (α × List α)), e.map Prod.fst = nodes →
      (∀ ij ∈ ps, ij.1 < nodes.length ∧ ij.2 < nodes.length) →
      ∀ a b : α,
      (b ∈ adjOf (ps.foldl (fun e ij =>
          if conn ij.1 ij.2 then
            addEdge (addEdge e (nodes.getD ij.1 default) (nodes.getD ij.2 default))
              (nodes.getD ij.2 default) (nodes.getD ij.1 default)
          else e) e) a ↔
        b ∈ adjOf e a ∨ ∃ ij ∈ ps, conn ij.1 ij.2 = true ∧
          ((nodes.getD ij.1 default = a ∧ nodes.getD ij.2 default = b) ∨
           (nodes.getD ij.2 default = a ∧ nodes.getD ij.1 default = b))) := by
  intro ps
  induction ps with
  | nil =>
    intro e _ _ a b
    simp
  | cons ij ps ih =>
    intro e hkeys hbound a b
    rw [List.foldl_cons]
    by_cases hconn : conn ij.1 ij.2
    · rw [if_pos hconn]
      set ni := nodes.getD ij.1 default with hni
      set nj := nodes.getD ij.2 default with hnj
      have hnimem : ni ∈ nodes := by
        rw [hni, List.getD_eq_getElem _ _ (hbound ij (List.mem_cons_self _ _)).1]
        exact List.getElem_mem _
      have hnjmem : nj ∈ nodes := by
        rw [hnj, List.getD_eq_getElem _ _ (hbound ij (List.mem_cons_self _ _)).2]
        exact List.getElem_mem _
      have hkeys2 : (addEdge (addEdge e ni nj) nj ni).map Prod.fst = nodes := by
        rw [keys_addEdge, keys_addEdge, hkeys]
      rw [ih _ hkeys2 (fun p hp => hbound p (List.mem_cons_of_mem _ hp)) a b]
      have hstep : b ∈ adjOf (addEdge (addEdge e ni nj) nj ni) a ↔
          b ∈ adjOf e a ∨ (a = ni ∧ b = nj) ∨ (a = nj ∧ b = ni) := by
        rw [adjOf_addEdge, adjOf_addEdge]
        rw [keys_addEdge, hkeys]
        by_cases h1 : a = nj
        · rw [if_pos ⟨h1, hnjmem⟩]
          by_cases h2 : a = ni
          · rw [if_pos ⟨h2, hnimem⟩]
            simp only [List.mem_append, List.mem_singleton]
            constructor
            · rintro ((hb | hb) | hb)
              · exact Or.inl hb
              · exact Or.inr (Or.inl ⟨h2, hb⟩)
              · exact Or.inr (Or.inr ⟨h1, hb⟩)
            · rintro (hb | ⟨_, hb⟩ | ⟨_, hb⟩)
              · exact Or.inl (Or.inl hb)
              · exact Or.inl (Or.inr hb)
              · exact Or.inr hb
          · rw [if_neg (fun h => h2 h.1)]
            simp only [List.mem_append, List.mem_singleton]
            constructor
            · rintro (hb | hb)
              · exact Or.inl hb
              · exact Or.inr (Or.inr ⟨h1, hb⟩)
            · rintro (hb | ⟨h3, _⟩ | ⟨_, hb⟩)
              · exact Or.inl hb
              · exact absurd h3 h2
              · exact Or.inr hb
        · rw [if_neg (fun h => h1 h.1)]
          by_cases h2 : a = ni
          · rw [if_pos ⟨h2, hnimem⟩]
            simp only [List.mem_append, List.mem_singleton]
            constructor
            · rintro (hb | hb)
              · exact Or.inl hb
              · exact Or.inr (Or.inl ⟨h2, hb⟩)
            · rintro (hb | ⟨_, hb⟩ | ⟨h3, _⟩)
              · exact Or.inl hb
              · exact Or.inr hb
              · exact absurd h3 h1
          · rw [if_neg (fun h => h2 h.1)]
            constructor
            · exact Or.inl
            · rintro (hb | ⟨h3, _⟩ | ⟨h3, _⟩)
              · exact hb
              · exact absurd h3 h2
              · exact absurd h3 h1
      rw [hstep]
      constructor
      · rintro ((hb | hb) | ⟨p, hp, hc, hd⟩)
        · exact Or.inl hb
        · exact Or.inr ⟨ij, List.mem_cons_self _ _, hconn, by tauto⟩
        · exact Or.inr ⟨p, List.mem_cons_of_mem _ hp, hc, hd⟩
      · rintro (hb | ⟨p, hp, hc, hd⟩)
        · exact Or.inl (Or.inl hb)
        · rcases List.mem_cons.mp hp with h3 | h3
          · subst h3
            exact Or.inl (Or.inr (by tauto))
          · exact Or.inr ⟨p, h3, hc, hd⟩
    · rw [if_neg hconn]
      rw [ih _ hkeys (fun p hp => hbound p (List.mem_cons_of_mem _ hp)) a b]
      constructor
      · rintro (hb | ⟨p, hp, hc, hd⟩)
        · exact Or.inl hb
        · exact Or.inr ⟨p, List.mem_cons_of_mem _ hp, hc, hd⟩
      · rintro (hb | ⟨p, hp, hc, hd⟩)
        · exact Or.inl hb
        · rcases List.mem_cons.mp hp with h3 | h3
          · subst h3
            exact absurd hc (by simpa using hconn)
          · exact Or.inr ⟨p, h3, hc, hd⟩

/-- Characterization of the built adjacency structure: `b` is adjacent to `a`
precisely when some qualifying index pair produced that edge. -/
theorem mem_adjOf_buildEdges (nodes : List α) [Inhabited α] (conn : ℕ → ℕ → Bool) (a b : α) :
    b ∈ adjOf (buildEdges nodes conn) a ↔
      ∃ i j : ℕ, i < j ∧ j < nodes.length ∧ conn i j = true ∧
        ((nodes.getD i default = a ∧ nodes.getD j default = b) ∨
         (nodes.getD j default = a ∧ nodes.getD i default = b)) := by
  unfold buildEdges
  rw [mem_adjOf_buildEdges_aux nodes conn (pairIdx nodes.length) (initEdges nodes)
    (keys_initEdges nodes) (fun ij hij => by
      have := mem_pairIdx.mp hij
      omega) a b]
  rw [adjOf_initEdges]
  simp only [List.not_mem_nil, false_or]
  constructor
  · rintro ⟨ij, hij, hc, hd⟩
    have hb := mem_pairIdx.mp hij
    exact ⟨ij.1, ij.2, hb.1, hb.2, hc, hd⟩
  · rintro ⟨i, j, h1, h2, hc, hd⟩
    exact ⟨(i, j), mem_pairIdx.mpr ⟨h1, h2⟩, hc, hd⟩

/-- Symmetry of the built adjacency structure. -/
theorem adjOf_buildEdges_symm (nodes : List α) [Inhabited α] (conn : ℕ → ℕ → Bool) (a b : α) :
    b ∈ adjOf (buildEdges nodes conn) a ↔ a ∈ adjOf (buildEdges nodes conn) b := by
  rw [mem_adjOf_buildEdges, mem_adjOf_buildEdges]
  constructor <;> (rintro ⟨i, j, h1, h2, hc, hd⟩; exact ⟨i, j, h1, h2, hc, by tauto⟩)

/-- Every adjacency target of the built structure is one of the nodes. -/
theorem mem_nodes_of_mem_adjOf_buildEdges (nodes : List α) [Inhabited α]
    (conn : ℕ → ℕ → Bool) {a b : α} (h : b ∈ adjOf (buildEdges nodes conn) a) :
    b ∈ nodes ∧ a ∈ nodes := by
  rcases (mem_adjOf_buildEdges nodes conn a b).mp h with ⟨i, j, h1, h2, _, hd⟩
  have hi : nodes.getD i default ∈ nodes := by
    rw [List.getD_eq_getElem _ _ (by omega)]
    exact List.getElem_mem _
  have hj : nodes.getD j default ∈ nodes := by
    rw [List.getD_eq_getElem _ _ h2]
    exact List.getElem_mem _
  rcases hd with ⟨ha, hb⟩ | ⟨ha, hb⟩
  · exact ⟨hb ▸ hj, ha ▸ hi⟩
  · exact ⟨hb ▸ hi, ha ▸ hj⟩

/-- Removing qualifying pairs only removes adjacencies. -/
theorem adjOf_buildEdges_mono (nodes : List α) [Inhabited α] (conn1 conn2 : ℕ → ℕ → Bool)
    (hc : ∀ i j, conn2 i j = true → conn1 i j = true) {a b : α}
    (h : b ∈ adjOf (buildEdges nodes conn2) a) : b ∈ adjOf (buildEdges nodes conn1) a := by
  rcases (mem_adjOf_buildEdges nodes conn2 a b).mp h with ⟨i, j, h1, h2, hcn, hd⟩
  exact (mem_adjOf_buildEdges nodes conn1 a b).mpr ⟨i, j, h1, h2, hc i j hcn, hd⟩

end Graph
end CodeComplete
namespace CodeComplete
namespace Graph

variable {α : Type} [DecidableEq α]

/-! ### Breadth-first search computes reachability classes -/

/-- A visited set closed under adjacency. -/
def ClosedSet (edges : List (α × List α)) (v : Finset α) : Prop :=
  ∀ x ∈ v, ∀ y ∈ adjOf edges x, y ∈ v

lemma closed_absorbs_reach {edges : List (α × List α)} {v : Finset α}
    (hv : ClosedSet edges v) {x y : α} (hx : x ∈ v)
    (h : Relation.ReflTransGen (adjRel edges) x y) : y ∈ v := by
  induction h with
  | refl => exact hx
  | tail _ h2 ih => exact hv _ ih _ h2

lemma reach_symm {edges : List (α × List α)}
    (hsym : ∀ a b : α, b ∈ adjOf edges a → a ∈ adjOf edges b) {a b : α}
    (h : Relation.ReflTransGen (adjRel edges) a b) :
    Relation.ReflTransGen (adjRel edges) b a := by
  induction h with
  | refl => exact Relation.ReflTransGen.refl
  | tail _ h2 ih => exact Relation.ReflTransGen.head (hsym _ _ h2) ih

lemma bfsGo_pred (edges : List (α × List α)) (P : α → Prop)
    (hstep : ∀ x y, P x → y ∈ adjOf edges x → P y) (v0 : Finset α) :
    ∀ (q : List α) (v : Finset α) (acc : List α), (∀ x ∈ q, P x) → (∀ x ∈ v, x ∈ v0 ∨ P x) →
      (∀ x ∈ (bfsGo edges q v acc).2, x ∈ v0 ∨ P x) ∧
      (∀ x ∈ (bfsGo edges q v acc).1, x ∈ acc ∨ P x) := by
  intro q v acc
  induction q, v, acc using bfsGo.induct edges with
  | case1 v acc =>
    intro _ hv
    refine ⟨by simpa [bfsGo] using hv, ?_⟩
    intro x hx
    simp only [bfsGo, List.mem_reverse] at hx
    exact Or.inl hx
  | case2 v acc c rest s =>
    rename_i ih
    intro hq hv
    rw [bfsGo]
    have hq' : ∀ x ∈ s.1, P x := by
      intro x hx
      rcases mem_fst_enqueueNew hx with h1 | h1
      · exact hq x (List.mem_cons_of_mem _ h1)
      · exact hstep c x (hq c (List.mem_cons_self _ _)) h1
    have hv' : ∀ x ∈ s.2, x ∈ v0 ∨ P x := by
      intro x hx
      rcases mem_snd_enqueueNew hx with h1 | h1
      · exact hv x h1
      · exact Or.inr (hstep c x (hq c (List.mem_cons_self _ _)) h1)
    obtain ⟨ch2, ch1⟩ := ih hq' hv'
    refine ⟨ch2, ?_⟩
    intro x hx
    rcases ch1 x hx with h1 | h1
    · rcases List.mem_cons.mp h1 with h2 | h2
      · exact Or.inr (h2 ▸ hq c (List.mem_cons_self _ _))
      · exact Or.inl h2
    · exact Or.inr h1

lemma bfsGo_closed (edges : List (α × List α)) :
    ∀ (q : List α) (v : Finset α) (acc : List α),
      (∀ x ∈ v, x ∈ q ∨ ∀ y ∈ adjOf edges x, y ∈ v) →
      ClosedSet edges (bfsGo edges q v acc).2 := by
  intro q v acc
  induction q, v, acc using bfsGo.induct edges with
  | case1 v acc =>
    intro hce x hx y hy
    simp only [bfsGo] at hx ⊢
    rcases hce x hx with h1 | h1
    · cases h1
    · exact h1 y hy
  | case2 v acc c rest s =>
    rename_i ih
    intro hce
    rw [bfsGo]
    refine ih ?_
    intro x hx
    rcases snd_to_fst_enqueueNew hx with h1 | h1
    · rcases hce x h1 with h2 | h2
      · rcases List.mem_cons.mp h2 with h3 | h3
        · refine Or.inr (fun y hy => ?_)
          rw [h3] at hy
          exact ns_subset_snd_enqueueNew hy
        · exact Or.inl (queue_subset_enqueueNew h3)
      · exact Or.inr (fun y hy => enqueueNew_visited_mono (h2 y hy))
    · exact Or.inl h1

lemma bfsRun_group_iff (edges : List (α × List α))
    (hsym : ∀ a b : α, b ∈ adjOf edges a → a ∈ adjOf edges b) {v0 : Finset α}
    (hv0 : ClosedSet edges v0) {a : α} (ha : a ∉ v0) :
    (∀ x, x ∈ (bfsGo edges [a] (insert a v0) []).1 ↔
        Relation.ReflTransGen (adjRel edges) a x) ∧
      (∀ x, x ∈ (bfsGo edges [a] (insert a v0) []).2 ↔
        x ∈ v0 ∨ Relation.ReflTransGen (adjRel edges) a x) ∧
      ClosedSet edges (bfsGo edges [a] (insert a v0) []).2 := by
  have hclosed : ClosedSet edges (bfsGo edges [a] (insert a v0) []).2 := by
    refine bfsGo_closed edges [a] (insert a v0) [] ?_
    intro x hx
    rcases Finset.mem_insert.mp hx with h1 | h1
    · exact Or.inl (by simp [h1])
    · exact Or.inr (fun y hy => Finset.mem_insert_of_mem (hv0 x h1 y hy))
  have hsound := bfsGo_pred edges (fun x => Relation.ReflTransGen (adjRel edges) a x)
    (fun x y hx hy => Relation.ReflTransGen.tail hx hy) v0 [a] (insert a v0) []
    (by intro x hx; simp at hx; subst hx; exact Relation.ReflTransGen.refl)
    (by
      intro x hx
      rcases Finset.mem_insert.mp hx with h1 | h1
      · exact Or.inr (h1 ▸ Relation.ReflTransGen.refl)
      · exact Or.inl h1)
  have hgroup_sub : ∀ x ∈ (bfsGo edges [a] (insert a v0) []).1,
      x ∈ (bfsGo edges [a] (insert a v0) []).2 := by
    refine bfsGo_group_subset_visited edges [a] (insert a v0) [] ?_ ?_
    · intro y hy; simp at hy; subst hy; exact Finset.mem_insert_self _ _
    · intro y hy; cases hy
  have hmem_a : a ∈ (bfsGo edges [a] (insert a v0) []).1 :=
    bfsGo_mem_of_queue_or_acc edges [a] (insert a v0) [] a (Or.inl (List.mem_singleton.mpr rfl))
  have hcomplete : ∀ x, Relation.ReflTransGen (adjRel edges) a x →
      x ∈ (bfsGo edges [a] (insert a v0) []).1 := by
    intro x hx
    induction hx with
    | refl => exact hmem_a
    | tail h1 h2 ih =>
      rename_i y z
      have hy2 : y ∈ (bfsGo edges [a] (insert a v0) []).2 := hgroup_sub y ih
      have hz2 : z ∈ (bfsGo edges [a] (insert a v0) []).2 := hclosed y hy2 z h2
      rcases bfsGo_visited_src edges [a] (insert a v0) [] z hz2 with h3 | h3
      · rcases Finset.mem_insert.mp h3 with h4 | h4
        · exact h4 ▸ hmem_a
        · exfalso
          have hza : Relation.ReflTransGen (adjRel edges) z a :=
            reach_symm hsym (Relation.ReflTransGen.tail h1 h2)
          exact ha (closed_absorbs_reach hv0 h4 hza)
      · exact h3
  have hgroup_iff : ∀ x, x ∈ (bfsGo edges [a] (insert a v0) []).1 ↔
      Relation.ReflTransGen (adjRel edges) a x := by
    intro x
    constructor
    · intro hx
      rcases (hsound.2 x hx) with h1 | h1
      · cases h1
      · exact h1
    · exact hcomplete x
  refine ⟨hgroup_iff, ?_, hclosed⟩
  intro x
  constructor
  · intro hx
    rcases bfsGo_visited_src edges [a] (insert a v0) [] x hx with h1 | h1
    · rcases Finset.mem_insert.mp h1 with h2 | h2
      · exact Or.inr (h2 ▸ Relation.ReflTransGen.refl)
      · exact Or.inl h2
    · exact Or.inr ((hgroup_iff x).mp h1)
  · intro hx
    rcases hx with h1 | h1
    · exact bfsGo_visited_mono edges [a] (insert a v0) [] (Finset.mem_insert_of_mem h1)
    · exact hgroup_sub x ((hgroup_iff x).mpr h1)

lemma mem_reachClass {edges : List (α × List α)} {U : Finset α} {a x : α} :
    x ∈ reachClass edges U a ↔ x ∈ U ∧ Relation.ReflTransGen (adjRel edges) a x := by
  unfold reachClass
  exact @Finset.mem_filter _ _ (Classical.decPred _) _ _

lemma reachClass_congr {edges : List (α × List α)} {U : Finset α}
    (hsym : ∀ a b : α, b ∈ adjOf edges a → a ∈ adjOf edges b) {a b : α}
    (h : Relation.ReflTransGen (adjRel edges) a b) :
    reachClass edges U a = reachClass edges U b := by
  ext x
  rw [mem_reachClass, mem_reachClass]
  constructor
  · rintro ⟨h1, h2⟩
    exact ⟨h1, Relation.ReflTransGen.trans (reach_symm hsym h) h2⟩
  · rintro ⟨h1, h2⟩
    exact ⟨h1, Relation.ReflTransGen.trans h h2⟩

lemma componentsGo_length_eq (edges : List (α × List α)) (U : Finset α)
    (hsym : ∀ a b : α, b ∈ adjOf edges a → a ∈ adjOf edges b) :
    ∀ (nodes : List α) (vis : Finset α), (∀ x ∈ nodes, x ∈ U) → ClosedSet edges vis →
      (componentsGo edges nodes vis).length =
        ((nodes.toFinset.filter (fun x => x ∉ vis)).image (reachClass edges U)).card := by
  intro nodes
  induction nodes with
  | nil => intro vis _ _; simp [componentsGo]
  | cons a rest ih =>
    intro vis hnodes hvis
    simp only [componentsGo, List.toFinset_cons]
    by_cases hav : a ∈ vis
    · rw [if_pos hav]
      have hset : (insert a rest.toFinset).filter (fun x => x ∉ vis) =
          rest.toFinset.filter (fun x => x ∉ vis) := by
        ext x
        simp only [Finset.mem_filter, Finset.mem_insert]
        constructor
        · rintro ⟨h1 | h1, h2⟩
          · exact absurd (h1 ▸ hav) h2
          · exact ⟨h1, h2⟩
        · rintro ⟨h1, h2⟩
          exact ⟨Or.inr h1, h2⟩
      rw [hset]
      exact ih vis (fun x hx => hnodes x (List.mem_cons_of_mem _ hx)) hvis
    · rw [if_neg hav]
      obtain ⟨hgroup, hvisited, hclosed⟩ := bfsRun_group_iff edges hsym hvis hav
      rw [List.length_cons, ih (bfsGo edges [a] (insert a vis) []).2
        (fun x hx => hnodes x (List.mem_cons_of_mem _ hx)) hclosed]
      have hsubvis : vis ⊆ (bfsGo edges [a] (insert a vis) []).2 := by
        intro x hx
        exact (hvisited x).mpr (Or.inl hx)
      have hfilter_insert :
          (insert a rest.toFinset).filter (fun x => x ∉ vis) =
            insert a (rest.toFinset.filter (fun x => x ∉ vis)) := by
        ext x
        simp only [Finset.mem_filter, Finset.mem_insert]
        constructor
        · rintro ⟨h1 | h1, h2⟩
          · exact Or.inl h1
          · exact Or.inr ⟨h1, h2⟩
        · rintro (h1 | ⟨h1, h2⟩)
          · exact ⟨Or.inl h1, h1 ▸ hav⟩
          · exact ⟨Or.inr h1, h2⟩
      rw [hfilter_insert, Finset.image_insert]
      have himages : insert (reachClass edges U a)
            ((rest.toFinset.filter (fun x => x ∉ vis)).image (reachClass edges U)) =
          insert (reachClass edges U a)
            ((rest.toFinset.filter
              (fun x => x ∉ (bfsGo edges [a] (insert a vis) []).2)).image
                (reachClass edges U)) := by
        ext T
        simp only [Finset.mem_insert, Finset.mem_image, Finset.mem_filter]
        constructor
        · rintro (h1 | ⟨x, ⟨hx1, hx2⟩, hx3⟩)
          · exact Or.inl h1
          · by_cases hx4 : x ∈ (bfsGo edges [a] (insert a vis) []).2
            · rcases (hvisited x).mp hx4 with h5 | h5
              · exact absurd h5 hx2
              · exact Or.inl (by rw [← hx3]; exact (reachClass_congr hsym h5).symm)
            · exact Or.inr ⟨x, ⟨hx1, hx4⟩, hx3⟩
        · rintro (h1 | ⟨x, ⟨hx1, hx2⟩, hx3⟩)
          · exact Or.inl h1
          · exact Or.inr ⟨x, ⟨hx1, fun h => hx2 (hsubvis h)⟩, hx3⟩
      have hnotmem : reachClass edges U a ∉
          (rest.toFinset.filter
            (fun x => x ∉ (bfsGo edges [a] (insert a vis) []).2)).image
              (reachClass edges U) := by
        intro hmem
        rcases Finset.mem_image.mp hmem with ⟨x, hx, hx3⟩
        rcases Finset.mem_filter.mp hx with ⟨hx1, hx2⟩
        have hxU : x ∈ U := hnodes x (List.mem_cons_of_mem _ (List.mem_toFinset.mp hx1))
        have hxx : x ∈ reachClass edges U x :=
          mem_reachClass.mpr ⟨hxU, Relation.ReflTransGen.refl⟩
        rw [hx3] at hxx
        have hax : Relation.ReflTransGen (adjRel edges) a x := (mem_reachClass.mp hxx).2
        exact hx2 ((hvisited x).mpr (Or.inr hax))
      rw [himages, Finset.card_insert_of_not_mem hnotmem]

lemma card_image_reachClass_le (edges1 edges2 : List (α × List α)) (U S : Finset α)
    (hmono : ∀ a b : α, b ∈ adjOf edges2 a → b ∈ adjOf edges1 a) (hS : S ⊆ U) :
    (S.image (reachClass edges1 U)).card ≤ (S.image (reachClass edges2 U)).card := by
  classical
  have hreach : ∀ a b : α, Relation.ReflTransGen (adjRel edges2) a b →
      Relation.ReflTransGen (adjRel edges1) a b :=
    fun a b h => Relation.ReflTransGen.mono (fun x y hxy => hmono x y hxy) h
  let F : Finset α → Finset α := fun T =>
    U.filter (fun z => ∃ w ∈ T, Relation.ReflTransGen (adjRel edges1) w z)
  have hFT : ∀ x ∈ S, F (reachClass edges2 U x) = reachClass edges1 U x := by
    intro x hx
    ext z
    simp only [F, Finset.mem_filter, mem_reachClass]
    constructor
    · rintro ⟨hzU, w, hw, hwz⟩
      exact ⟨hzU, Relation.ReflTransGen.trans (hreach x w hw.2) hwz⟩
    · rintro ⟨hzU, hxz⟩
      exact ⟨hzU, x, ⟨hS hx, Relation.ReflTransGen.refl⟩, hxz⟩
  have himg : S.image (reachClass edges1 U) = (S.image (reachClass edges2 U)).image F := by
    rw [Finset.image_image]
    exact Finset.image_congr (fun x hx => (hFT x hx).symm)
  rw [himg]
  exact Finset.card_image_le

/-- Fewer qualifying pairs can only split components further: the component
count of the graph built from the stronger condition is at least that of the
weaker one. -/
theorem componentsOf_buildEdges_mono [Inhabited α] (nodes : List α)
    (conn1 conn2 : ℕ → ℕ → Bool) (hc : ∀ i j, conn2 i j = true → conn1 i j = true) :
    (componentsOf nodes (buildEdges nodes conn1)).length ≤
      (componentsOf nodes (buildEdges nodes conn2)).length := by
  have hfilter : ∀ (S : Finset α), S.filter (fun x => x ∉ (∅ : Finset α)) = S := by
    intro S
    ext x
    simp
  have h1 := componentsGo_length_eq (buildEdges nodes conn1) nodes.toFinset
    (fun a b h => (adjOf_buildEdges_symm nodes conn1 a b).mp h)
    nodes ∅ (fun x hx => List.mem_toFinset.mpr hx) (fun x hx => absurd hx (Finset.not_mem_empty x))
  have h2 := componentsGo_length_eq (buildEdges nodes conn2) nodes.toFinset
    (fun a b h => (adjOf_buildEdges_symm nodes conn2 a b).mp h)
    nodes ∅ (fun x hx => List.mem_toFinset.mpr hx) (fun x hx => absurd hx (Finset.not_mem_empty x))
  unfold componentsOf
  rw [h1, h2, hfilter]
  exact card_image_reachClass_le (buildEdges nodes conn1) (buildEdges nodes conn2)
    nodes.toFinset nodes.toFinset
    (fun a b h => adjOf_buildEdges_mono nodes conn1 conn2 hc h) (fun x hx => hx)

end Graph
end CodeComplete
namespace CodeComplete

/-! ### Bridge lemmas for the function-level analysis -/

lemma analyzeFunctionCohesion_gate_fail (t : ℚ) (minLen : ℤ) (fctx : FunctionContext)
    (h : (∃ l, fctx.loc = some l ∧ l.endLine - l.startLine + 1 < minLen) ∨
      fctx.blocks.length < 2) :
    analyzeFunctionCohesion t minLen fctx = defaultCohesionResult := by
  unfold analyzeFunctionCohesion
  split
  · rfl
  · rename_i l hloc
    rcases h with ⟨l', hl', hlen⟩ | hblk
    · rw [hloc] at hl'
      injection hl' with he
      subst he
      rw [if_pos hlen]
    · by_cases hlen : l.endLine - l.startLine + 1 < minLen
      · rw [if_pos hlen]
      · rw [if_neg hlen, if_pos hblk]

lemma analyzeFunctionCohesion_componentCount (t : ℚ) (minLen : ℤ) (fctx : FunctionContext)
    (l : Loc) (hloc : fctx.loc = some l) (hlen : minLen ≤ l.endLine - l.startLine + 1)
    (hblk : 2 ≤ fctx.blocks.length) :
    (analyzeFunctionCohesion t minLen fctx).componentCount =
      (functionComponents fctx.blocks t).length := by
  simp only [analyzeFunctionCohesion, hloc]
  rw [if_neg (not_lt.mpr hlen), if_neg (not_lt.mpr hblk)]
  simp

lemma analyzeFunctionCohesion_isLowCohesion (t : ℚ) (minLen : ℤ) (fctx : FunctionContext)
    (l : Loc) (hloc : fctx.loc = some l) (hlen : minLen ≤ l.endLine - l.startLine + 1)
    (hblk : 2 ≤ fctx.blocks.length) :
    (analyzeFunctionCohesion t minLen fctx).isLowCohesion =
      decide (1 < (functionComponents fctx.blocks t).length) := by
  simp only [analyzeFunctionCohesion, hloc]
  rw [if_neg (not_lt.mpr hlen), if_neg (not_lt.mpr hblk)]
  simp

lemma analyzeFunctionCohesion_groups (t : ℚ) (minLen : ℤ) (fctx : FunctionContext)
    (l : Loc) (hloc : fctx.loc = some l) (hlen : minLen ≤ l.endLine - l.startLine + 1)
    (hblk : 2 ≤ fctx.blocks.length) :
    (analyzeFunctionCohesion t minLen fctx).groups =
      (functionComponents fctx.blocks t).map (mkGroup fctx.blocks) := by
  simp only [analyzeFunctionCohesion, hloc]
  rw [if_neg (not_lt.mpr hlen), if_neg (not_lt.mpr hblk)]

lemma analyzeClassCohesion_gate_fail (minLen : ℤ) (cctx : ClassContext)
    (h : (∃ l, cctx.loc = some l ∧ l.endLine - l.startLine + 1 < minLen) ∨
      cctx.methods.length < 2) :
    analyzeClassCohesion minLen cctx = { isLowCohesion := false, componentCount := 0 } := by
  unfold analyzeClassCohesion
  split
  · rfl
  · rename_i l hloc
    rcases h with ⟨l', hl', hlen⟩ | hblk
    · rw [hloc] at hl'
      injection hl' with he
      subst he
      rw [if_pos hlen]
    · by_cases hlen : l.endLine - l.startLine + 1 < minLen
      · rw [if_pos hlen]
      · rw [if_neg hlen, if_pos hblk]

lemma ruleStep_funcExit_reports (t : ℚ) (minLen : ℤ) (st : RuleState)
    (fctx : FunctionContext) (rest : List FunctionContext)
    (hst : st.functionStack = fctx :: rest) :
    (ruleStep t minLen st .funcExit).reports =
      (if (analyzeFunctionCohesion t minLen fctx).isLowCohesion then
        st.reports ++ [{ componentCount := (analyzeFunctionCohesion t minLen fctx).componentCount
                         averageOverlap := (analyzeFunctionCohesion t minLen fctx).averageOverlap
                         minSharedVariablePercentage := t }]
      else st.reports) := by
  simp only [ruleStep, hst]
  split <;> rfl

/-- Claim C4: the overlap score is 100 when either combined reads-or-writes
set is empty, and otherwise equals the shared-over-union Jaccard percentage,
whose denominator is then nonzero; in particular a signal-free block scores
100 against every other block. -/
theorem C4_overlap_score_spec (block1 block2 : CodeBlock) :
    ((block1.vars.reads ∪ block1.vars.writes = ∅ ∨ block2.vars.reads ∪ block2.vars.writes = ∅) →
      calculateOverlapPercentage block1 block2 = 100) ∧
    (block1.vars.reads ∪ block1.vars.writes ≠ ∅ → block2.vars.reads ∪ block2.vars.writes ≠ ∅ →
      calculateOverlapPercentage block1 block2 =
        (((block1.vars.reads ∪ block1.vars.writes) ∩
            (block2.vars.reads ∪ block2.vars.writes)).card : ℚ) /
          (((block1.vars.reads ∪ block1.vars.writes) ∪
            (block2.vars.reads ∪ block2.vars.writes)).card : ℚ) * 100 ∧
      (((block1.vars.reads ∪ block1.vars.writes) ∪
          (block2.vars.reads ∪ block2.vars.writes)).card : ℚ) ≠ 0) ∧
    (block1.vars.reads ∪ block1.vars.writes = ∅ →
      calculateOverlapPercentage block1 block2 = 100) := by
  refine ⟨?_, ?_, ?_⟩
  · intro h
    unfold calculateOverlapPercentage
    rcases h with h | h <;> rw [if_pos] <;> simp [h]
  · intro h1 h2
    unfold calculateOverlapPercentage
    rw [if_neg (by simp [Finset.card_eq_zero]; exact ⟨h1, h2⟩)]
    constructor
    · rw [Finset.filter_mem_eq_inter]
    · have : (block1.vars.reads ∪ block1.vars.writes) ∪
          (block2.vars.reads ∪ block2.vars.writes) ≠ ∅ := by
        intro hu
        exact h1 (Finset.union_eq_empty.mp hu).1
      simpa [Finset.card_eq_zero]
  · intro h
    unfold calculateOverlapPercentage
    rw [if_pos (Or.inl (by simp [h]))]

/-- Witness for C4 at concrete blocks. -/
theorem C4_witness :
    calculateOverlapPercentage blkEmpty blkA = 100 ∧
    calculateOverlapPercentage blkA blkB =
      (((blkA.vars.reads ∪ blkA.vars.writes) ∩ (blkB.vars.reads ∪ blkB.vars.writes)).card : ℚ) /
        (((blkA.vars.reads ∪ blkA.vars.writes) ∪
          (blkB.vars.reads ∪ blkB.vars.writes)).card : ℚ) * 100 :=
  ⟨(C4_overlap_score_spec blkEmpty blkA).1 (Or.inl (by decide)),
   ((C4_overlap_score_spec blkA blkB).2.1 (by decide) (by decide)).1⟩

/-- Claim C7: a unit whose source span is shorter than the configured minimum
length, or which owns fewer than two blocks (methods), yields the default
analysis result and no finding: the function-exit handler leaves the reports
unchanged, and the class analysis never flags, so the class-exit handler also
leaves the reports unchanged. -/
theorem C7_size_gating (t : ℚ) (minFnLen minClsLen : ℤ) (fctx : FunctionContext)
    (cctx : ClassContext)
    (hf : (∃ l, fctx.loc = some l ∧ l.endLine - l.startLine + 1 < minFnLen) ∨
      fctx.blocks.length < 2)
    (hc : (∃ l, cctx.loc = some l ∧ l.endLine - l.startLine + 1 < minClsLen) ∨
      cctx.methods.length < 2) :
    analyzeFunctionCohesion t minFnLen fctx = defaultCohesionResult ∧
    (∀ st rest, st.functionStack = fctx :: rest →
      (ruleStep t minFnLen st .funcExit).reports = st.reports) ∧
    analyzeClassCohesion minClsLen cctx = { isLowCohesion := false, componentCount := 0 } ∧
    (∀ st rest, st.classStack = cctx :: rest →
      (classExit minClsLen st).reports = st.reports) := by
  have hfa := analyzeFunctionCohesion_gate_fail t minFnLen fctx hf
  have hca := analyzeClassCohesion_gate_fail minClsLen cctx hc
  refine ⟨hfa, ?_, hca, ?_⟩
  · intro st rest hst
    rw [ruleStep_funcExit_reports t minFnLen st fctx rest hst, hfa]
    rfl
  · intro st rest hst
    simp only [classExit, hst, hca]
    rfl

/-- Witness for C7 at a concrete 5-line function context and a concrete class
context with a single method. -/
theorem C7_witness :
    analyzeFunctionCohesion 30 10
      (FunctionContext.mk (some (Loc.mk 1 5)) [blkA, blkC] ∅) = defaultCohesionResult ∧
    analyzeClassCohesion 10 (ClassContext.mk (some (Loc.mk 1 20)) [("m1", {"a"})]) =
      { isLowCohesion := false, componentCount := 0 } := by
  have h := C7_size_gating 30 10 10
    (FunctionContext.mk (some (Loc.mk 1 5)) [blkA, blkC] ∅)
    (ClassContext.mk (some (Loc.mk 1 20)) [("m1", {"a"})])
    (Or.inl ⟨Loc.mk 1 5, rfl, by decide⟩)
    (Or.inr (by decide))
  exact ⟨h.1, h.2.2.1⟩

/-- Claim C8: exit events arriving on an empty (or bottomed-out) stack are
no-ops: a function exit with an empty function stack, and a block exit with an
empty function stack or with at most the function top-level accumulator frame
left, leave the whole listener state unchanged — nothing is popped, nothing is
reported. -/
theorem C8_underflow_noop (t : ℚ) (minLen : ℤ) (st : RuleState) (bt : String)
    (loc : Option Loc) :
    (st.functionStack = [] → ruleStep t minLen st .funcExit = st) ∧
    (st.functionStack = [] ∨ st.blockStack.length ≤ 1 →
      ruleStep t minLen st (.blockExit bt loc) = st) := by
  constructor
  · intro h
    simp only [ruleStep, h]
  · intro h
    have hcond : st.functionStack.length = 0 ∨ st.blockStack.length ≤ 1 := by
      rcases h with h | h
      · exact Or.inl (by simp [h])
      · exact Or.inr h
    simp only [ruleStep, if_pos hcond]

/-- Witness for C8 on the empty initial state. -/
theorem C8_witness :
    ruleStep 30 10 initialRuleState .funcExit = initialRuleState ∧
    ruleStep 30 10 initialRuleState (.blockExit "if" none) = initialRuleState := by
  have h := C8_underflow_noop 30 10 initialRuleState "if" none
  exact ⟨h.1 rfl, h.2 (Or.inl rfl)⟩

/-- Claim C9: an identifier event touches only the innermost block accumulator
(the tail of the block stack, every recorded block list, and the reports are
unchanged); popping a nested block never merges its sets into the enclosing
accumulator (the resulting block stack is exactly the tail); and concretely,
an outer control structure whose only identifier usage sits in a nested
control structure ends empty and is discarded: only the inner block is
recorded. -/
theorem C9_innermost_attribution (t : ℚ) (minLen : ℤ) (st : RuleState) (n : String)
    (pk : ParentKind) (bt : String) (loc : Option Loc) :
    ((ruleStep t minLen st (.ident n pk)).blockStack.tail = st.blockStack.tail ∧
     (ruleStep t minLen st (.ident n pk)).functionStack.map FunctionContext.blocks =
       st.functionStack.map FunctionContext.blocks ∧
     (ruleStep t minLen st (.ident n pk)).reports = st.reports) ∧
    (st.functionStack ≠ [] → 2 ≤ st.blockStack.length →
      (ruleStep t minLen st (.blockExit bt loc)).blockStack = st.blockStack.tail) ∧
    (runRule 30 10 [.funcEnter (some { startLine := 1, endLine := 12 }), .blockEnter,
        .blockEnter, .ident "x" .other, .blockExit "if" (some { startLine := 2, endLine := 3 }),
        .blockExit "if" (some { startLine := 1, endLine := 4 })]).functionStack =
      [{ loc := some { startLine := 1, endLine := 12 },
         blocks := [{ vars := { reads := {"x"}, writes := ∅ }, blockType := "if",
                      startLine := 2, endLine := 3 }],
         vars := {"x"} }] := by
  obtain ⟨fstack, bstack, reps⟩ := st
  refine ⟨?_, ?_, by decide⟩
  · simp only [ruleStep]
    split
    · exact ⟨rfl, rfl, rfl⟩
    · rename_i hcond
      cases fstack with
      | nil => exact (hcond (Or.inl rfl)).elim
      | cons f fs =>
        cases bstack with
        | nil => exact (hcond (Or.inr (Or.inl rfl))).elim
        | cons b bs =>
          by_cases h1 : pk = ParentKind.memberProp
          · simp [h1]
          · by_cases h2 : pk = ParentKind.declaratorId ∨ pk = ParentKind.assignLeft ∨
                pk = ParentKind.param
            · simp [h1, h2]
            · simp [h1, h2]
  · intro hfs hbs
    cases fstack with
    | nil => exact absurd rfl hfs
    | cons f fs =>
      cases bstack with
      | nil =>
        have h0 : (2 : ℕ) ≤ 0 := hbs
        omega
      | cons b bs =>
        cases bs with
        | nil =>
          have h0 : (2 : ℕ) ≤ 1 := hbs
          omega
        | cons b2 bs2 =>
          simp only [ruleStep]
          rw [if_neg (by
            push_neg
            refine ⟨by simp, ?_⟩
            simp only [List.length_cons]
            omega)]
          split
          · rfl
          · rfl

end CodeComplete
namespace CodeComplete

/-! ### Lemmas about the method map of the class-level rule -/

lemma find?_map_replace (m : List (String × Finset String)) (k : String) (v : Finset String)
    (hmem : ∃ q ∈ m, q.1 = k) :
    (m.map (fun p => if p.1 = k then (k, v) else p)).find? (fun p => decide (p.1 = k)) =
      some (k, v) := by
  induction m with
  | nil =>
    rcases hmem with ⟨q, hq, _⟩
    cases hq
  | cons p ps ih =>
    by_cases hpk : p.1 = k
    · simp only [List.map_cons, if_pos hpk]
      rw [List.find?_cons_of_pos _ (by simp)]
    · simp only [List.map_cons, if_neg hpk]
      rw [List.find?_cons_of_neg _ (by simp [hpk])]
      refine ih ?_
      rcases hmem with ⟨q, hq, hq2⟩
      rcases List.mem_cons.mp hq with h | h
      · exact absurd (h ▸ hq2) hpk
      · exact ⟨q, h, hq2⟩

lemma find?_map_replace_other (m : List (String × Finset String)) (k : String)
    (v : Finset String) (k' : String) (hne : k' ≠ k) :
    (m.map (fun p => if p.1 = k then (k, v) else p)).find? (fun p => decide (p.1 = k')) =
      m.find? (fun p => decide (p.1 = k')) := by
  induction m with
  | nil => rfl
  | cons p ps ih =>
    by_cases hpk : p.1 = k
    · simp only [List.map_cons, if_pos hpk]
      rw [List.find?_cons_of_neg _ (by simp; exact fun h => hne h.symm),
        List.find?_cons_of_neg _ (by simp [hpk]; exact fun h => hne h.symm)]
      exact ih
    · simp only [List.map_cons, if_neg hpk]
      by_cases hpa : p.1 = k'
      · rw [List.find?_cons_of_pos _ (by simp [hpa]), List.find?_cons_of_pos _ (by simp [hpa])]
      · rw [List.find?_cons_of_neg _ (by simp [hpa]), List.find?_cons_of_neg _ (by simp [hpa])]
        exact ih

lemma lookupMethodOpt_mapSet_self (m : List (String × Finset String)) (k : String)
    (v : Finset String) : lookupMethodOpt (mapSet m k v) k = some v := by
  unfold mapSet lookupMethodOpt
  by_cases hany : m.any (fun p => decide (p.1 = k))
  · rw [if_pos hany]
    rcases List.any_eq_true.mp hany with ⟨q, hq, hq2⟩
    rw [find?_map_replace m k v ⟨q, hq, by simpa using hq2⟩]
    rfl
  · rw [if_neg hany, List.find?_append]
    have hnone : m.find? (fun p => decide (p.1 = k)) = none := by
      rw [List.find?_eq_none]
      intro q hq hq2
      exact hany (List.any_eq_true.mpr ⟨q, hq, hq2⟩)
    rw [hnone]
    simp

lemma lookupMethodOpt_mapSet_other (m : List (String × Finset String)) (k : String)
    (v : Finset String) (k' : String) (hne : k' ≠ k) :
    lookupMethodOpt (mapSet m k v) k' = lookupMethodOpt m k' := by
  unfold mapSet lookupMethodOpt
  by_cases hany : m.any (fun p => decide (p.1 = k))
  · rw [if_pos hany, find?_map_replace_other m k v k' hne]
  · rw [if_neg hany, List.find?_append]
    cases hf : m.find? (fun p => decide (p.1 = k')) with
    | some q => simp
    | none =>
      rw [Option.none_or, List.find?_cons_of_neg _ (by simp; exact fun h => hne h.symm)]
      rfl

lemma keys_mapSet (m : List (String × Finset String)) (k : String) (v : Finset String) :
    (mapSet m k v).map Prod.fst =
      if m.any (fun p => decide (p.1 = k)) then m.map Prod.fst
      else m.map Prod.fst ++ [k] := by
  unfold mapSet
  split
  · rw [List.map_map]
    refine List.map_congr_left ?_
    intro p _
    by_cases h : p.1 = k <;> simp [h]
  · simp

lemma keys_mapSet_nodup (m : List (String × Finset String)) (k : String) (v : Finset String)
    (h : (m.map Prod.fst).Nodup) : ((mapSet m k v).map Prod.fst).Nodup := by
  rw [keys_mapSet]
  split
  · exact h
  · rename_i hany
    have hk : k ∉ m.map Prod.fst := by
      intro hmem
      rcases List.mem_map.mp hmem with ⟨q, hq, hq2⟩
      exact hany (List.any_eq_true.mpr ⟨q, hq, by simp [hq2]⟩)
    simp [List.nodup_append, h, hk]

lemma mem_keys_mapSet_self (m : List (String × Finset String)) (k : String) (v : Finset String) :
    k ∈ (mapSet m k v).map Prod.fst := by
  rw [keys_mapSet]
  split
  · rename_i hany
    rcases List.any_eq_true.mp hany with ⟨q, hq, hq2⟩
    exact List.mem_map.mpr ⟨q, hq, by simpa using hq2⟩
  · exact List.mem_append.mpr (Or.inr (List.mem_singleton.mpr rfl))

lemma mem_keys_mapSet_mono (m : List (String × Finset String)) (k : String) (v : Finset String)
    (k' : String) (h : k' ∈ m.map Prod.fst) : k' ∈ (mapSet m k v).map Prod.fst := by
  rw [keys_mapSet]
  split
  · exact h
  · exact List.mem_append.mpr (Or.inl h)

lemma mem_keys_collect_foldl (name : String) :
    ∀ (records : List MethodRecord) (m0 : List (String × Finset String)),
      name ∈ m0.map Prod.fst →
      name ∈ ((records.foldl (fun methods r =>
        if r.kind = "constructor" then methods
        else mapSet methods (methodNameOf r) (usedMembersOf r.accesses)) m0).map Prod.fst) := by
  intro records
  induction records with
  | nil => intro m0 h; exact h
  | cons r rs ih =>
    intro m0 h
    rw [List.foldl_cons]
    refine ih _ ?_
    split
    · exact h
    · exact mem_keys_mapSet_mono _ _ _ _ h

lemma collectMethods_keys_nodup (records : List MethodRecord) :
    ((collectMethods records).map Prod.fst).Nodup := by
  unfold collectMethods
  suffices h : ∀ (m0 : List (String × Finset String)), (m0.map Prod.fst).Nodup →
      ((records.foldl (fun methods r =>
        if r.kind = "constructor" then methods
        else mapSet methods (methodNameOf r) (usedMembersOf r.accesses)) m0).map Prod.fst).Nodup by
    exact h [] (by simp)
  induction records with
  | nil => intro m0 h; exact h
  | cons r rs ih =>
    intro m0 h
    rw [List.foldl_cons]
    refine ih _ ?_
    split
    · exact h
    · exact keys_mapSet_nodup _ _ _ h

lemma lookupMethodOpt_collect_foldl (name : String) :
    ∀ (records : List MethodRecord) (m0 : List (String × Finset String)),
      lookupMethodOpt (records.foldl (fun methods r =>
          if r.kind = "constructor" then methods
          else mapSet methods (methodNameOf r) (usedMembersOf r.accesses)) m0) name =
        match lastNonConstructorNamed records name with
        | some r => some (usedMembersOf r.accesses)
        | none => lookupMethodOpt m0 name := by
  intro records
  induction records with
  | nil =>
    intro m0
    rfl
  | cons r rs ih =>
    intro m0
    rw [List.foldl_cons, ih]
    by_cases hpr : r.kind ≠ "constructor" ∧ methodNameOf r = name
    · have hfilter : lastNonConstructorNamed (r :: rs) name =
          (r :: rs.filter (fun r => decide (r.kind ≠ "constructor" ∧ methodNameOf r = name))).getLast? := by
        unfold lastNonConstructorNamed
        rw [List.filter_cons, if_pos (by simpa using hpr)]
      rw [hfilter]
      cases hrs : rs.filter (fun r => decide (r.kind ≠ "constructor" ∧ methodNameOf r = name)) with
      | nil =>
        have hlast : lastNonConstructorNamed rs name = none := by
          unfold lastNonConstructorNamed
          rw [hrs]
          rfl
        rw [hlast]
        show lookupMethodOpt (if r.kind = "constructor" then m0
            else mapSet m0 (methodNameOf r) (usedMembersOf r.accesses)) name =
          some (usedMembersOf r.accesses)
        rw [if_neg hpr.1, hpr.2, lookupMethodOpt_mapSet_self]
      | cons q l =>
        have hlast : lastNonConstructorNamed rs name = (q :: l).getLast? := by
          unfold lastNonConstructorNamed
          rw [hrs]
        obtain ⟨r2, hr2⟩ : ∃ r2, (q :: l).getLast? = some r2 :=
          ⟨(q :: l).getLast (by simp), List.getLast?_eq_getLast _ _⟩
        rw [hlast, List.getLast?_cons_cons, hr2]
    · have hfilter : lastNonConstructorNamed (r :: rs) name = lastNonConstructorNamed rs name := by
        unfold lastNonConstructorNamed
        rw [List.filter_cons, if_neg (by simpa using hpr)]
      rw [hfilter]
      cases hl : lastNonConstructorNamed rs name with
      | some r2 => rfl
      | none =>
        simp only
        by_cases hcons : r.kind = "constructor"
        · rw [if_pos hcons]
        · rw [if_neg hcons]
          push_neg at hpr
          exact lookupMethodOpt_mapSet_other _ _ _ _ (fun h => (hpr hcons) h.symm)

lemma mem_keys_collect_aux :
    ∀ (records : List MethodRecord) (m0 : List (String × Finset String)) (r : MethodRecord),
      r ∈ records → r.kind ≠ "constructor" →
      methodNameOf r ∈ ((records.foldl (fun methods r =>
        if r.kind = "constructor" then methods
        else mapSet methods (methodNameOf r) (usedMembersOf r.accesses)) m0).map Prod.fst) := by
  intro records
  induction records with
  | nil =>
    intro m0 r hr
    cases hr
  | cons q qs ih =>
    intro m0 r hr hk
    rw [List.foldl_cons]
    rcases List.mem_cons.mp hr with h | h
    · subst h
      refine mem_keys_collect_foldl _ qs _ ?_
      rw [if_neg hk]
      exact mem_keys_mapSet_self _ _ _
    · exact ih _ r h hk

/-- Claim C10: methods are stored in a map keyed by method name, so
non-constructor methods sharing a name collapse into a single entry whose
usedMembers set is that of the last such method visited; the key list is
duplicate-free and is exactly the node list of the overlap graph, so the
component count is computed over distinct names. -/
theorem C10_method_map_collapse (records : List MethodRecord) (name : String)
    (loc : Option Loc) :
    lookupMethodOpt (collectMethods records) name =
      (lastNonConstructorNamed records name).map (fun r => usedMembersOf r.accesses) ∧
    ((collectMethods records).map Prod.fst).Nodup ∧
    (classEdges { loc := loc, methods := collectMethods records }).map Prod.fst =
      (collectMethods records).map Prod.fst := by
  refine ⟨?_, collectMethods_keys_nodup records, ?_⟩
  · rw [collectMethods, lookupMethodOpt_collect_foldl]
    cases lastNonConstructorNamed records name with
    | some r => rfl
    | none => rfl
  · exact Graph.keys_buildEdges _ _

/-- Counterexample to claim C2: in the class built from c2Records the method
m3 has an empty usedMembers set, yet it is not discarded — it is a key of the
method map, a node of the overlap graph, and a member of a reported component
(the class is flagged with two components). -/
theorem C2_counterexample :
    lookupMethod c2Ctx.methods "m3" = ∅ ∧
    "m3" ∈ c2Ctx.methods.map Prod.fst ∧
    (analyzeClassCohesion 10 c2Ctx).isLowCohesion = true ∧
    (analyzeClassCohesion 10 c2Ctx).componentCount = 2 ∧
    ∃ g ∈ Graph.componentsOf (c2Ctx.methods.map Prod.fst) (classEdges c2Ctx), "m3" ∈ g := by
  have hm2 : c2Ctx.methods = [("m1", {"a"}), ("m2", {"a"}), ("m3", ∅)] := by decide
  have hc01 : classConn [("m1", {"a"}), ("m2", {"a"}), ("m3", ∅)] ["m1", "m2", "m3"] 0 1 =
      true := by decide
  have hc02 : classConn [("m1", {"a"}), ("m2", {"a"}), ("m3", ∅)] ["m1", "m2", "m3"] 0 2 =
      false := by decide
  have hc12 : classConn [("m1", {"a"}), ("m2", {"a"}), ("m3", ∅)] ["m1", "m2", "m3"] 1 2 =
      false := by decide
  have hedges : classEdges c2Ctx =
      Graph.buildEdges ["m1", "m2", "m3"]
        (classConn [("m1", {"a"}), ("m2", {"a"}), ("m3", ∅)] ["m1", "m2", "m3"]) := by
    unfold classEdges
    rw [hm2]
    simp
  have hcomp : Graph.componentsOf (c2Ctx.methods.map Prod.fst) (classEdges c2Ctx) =
      [["m1", "m2"], ["m3"]] := by
    rw [hm2, hedges]
    simp only [List.map_cons, List.map_nil]
    simp [Graph.buildEdges, Graph.pairIdx, Graph.componentsOf, Graph.componentsGo, Graph.bfsGo,
      Graph.enqueueNew, Graph.adjOf, Graph.initEdges, Graph.addEdge, List.range_succ,
      hc01, hc02, hc12]
  have hloc : c2Ctx.loc = some { startLine := 1, endLine := 12 } := rfl
  refine ⟨by decide, by decide, ?_, ?_, ?_⟩
  · simp only [analyzeClassCohesion, hloc]
    rw [if_neg (by decide), if_neg (by decide)]
    simp only
    rw [hcomp]
    rfl
  · simp only [analyzeClassCohesion, hloc]
    rw [if_neg (by decide), if_neg (by decide)]
    simp only
    rw [hcomp]
    rfl
  · rw [hcomp]
    exact ⟨["m3"], by simp, by simp⟩

/-- Claim C2 amended: a class-level method block with empty usedMembers is not
discarded — every non-constructor method definition ends up as a key of the
methods map regardless of its usedMembers set, and the node list of the
overlap graph is exactly that key list. -/
theorem C2_amended_empty_methods_retained (records : List MethodRecord) (r : MethodRecord)
    (hr : r ∈ records) (hk : r.kind ≠ "constructor") (loc : Option Loc) :
    methodNameOf r ∈ (collectMethods records).map Prod.fst ∧
    (classEdges { loc := loc, methods := collectMethods records }).map Prod.fst =
      (collectMethods records).map Prod.fst := by
  constructor
  · rw [collectMethods]
    exact mem_keys_collect_aux records [] r hr hk
  · exact Graph.keys_buildEdges _ _

/-- Witness for the amended C2 at the concrete class body: the member-free
method m3 is kept as a key and graph node. -/
theorem C2_amended_witness :
    methodNameOf { kind := "method", keyName := some "m3", accesses := [] } ∈
      (collectMethods c2Records).map Prod.fst ∧
    (classEdges (ClassContext.mk (some (Loc.mk 1 12)) (collectMethods c2Records))).map Prod.fst =
      (collectMethods c2Records).map Prod.fst :=
  C2_amended_empty_methods_retained c2Records
    { kind := "method", keyName := some "m3", accesses := [] }
    (by decide) (by decide) (some (Loc.mk 1 12))

end CodeComplete
namespace CodeComplete

/-! ### Claims C5, C6: partition and threshold monotonicity -/

/-- Claim C5: for a finalized function unit passing the gates, the groups of
the breadth-first connected-components computation partition the block index
set: every index lies in exactly one group, and groups contain only valid
indices. -/
theorem C5_partition (t : ℚ) (minLen : ℤ) (fctx : FunctionContext) (l : Loc)
    (hloc : fctx.loc = some l) (hlen : minLen ≤ l.endLine - l.startLine + 1)
    (hblk : 2 ≤ fctx.blocks.length) :
    (∀ i ∈ List.range fctx.blocks.length,
      (analyzeFunctionCohesion t minLen fctx).groups.countP
        (fun g => decide (i ∈ g.blockIndices)) = 1) ∧
    ∀ g ∈ (analyzeFunctionCohesion t minLen fctx).groups, ∀ i ∈ g.blockIndices,
      i ∈ List.range fctx.blocks.length := by
  have hgroups := analyzeFunctionCohesion_groups t minLen fctx l hloc hlen hblk
  have hcl : ∀ a b : ℕ, b ∈ Graph.adjOf (functionEdges fctx.blocks t) a →
      b ∈ List.range fctx.blocks.length :=
    fun a b h => (Graph.mem_nodes_of_mem_adjOf_buildEdges _ _ h).1
  have hpart := Graph.componentsOf_partition (List.range fctx.blocks.length)
    (functionEdges fctx.blocks t) hcl
  constructor
  · intro i hi
    rw [hgroups, List.countP_map]
    have h1 := hpart.1 i hi
    have heq : ((fun g => decide (i ∈ g.blockIndices)) ∘ mkGroup fctx.blocks) =
        fun g => decide (i ∈ g) := by
      funext g
      simp [mkGroup]
    rw [heq]
    exact h1
  · intro g hg i hig
    rw [hgroups] at hg
    rcases List.mem_map.mp hg with ⟨g0, hg0, hge⟩
    refine hpart.2 g0 hg0 i ?_
    rw [← hge] at hig
    simpa [mkGroup] using hig

/-- Witness for C5 at the concrete chain function. -/
theorem C5_witness :
    (∀ i ∈ List.range chainCtx.blocks.length,
      (analyzeFunctionCohesion 30 10 chainCtx).groups.countP
        (fun g => decide (i ∈ g.blockIndices)) = 1) ∧
    ∀ g ∈ (analyzeFunctionCohesion 30 10 chainCtx).groups, ∀ i ∈ g.blockIndices,
      i ∈ List.range chainCtx.blocks.length :=
  C5_partition 30 10 chainCtx { startLine := 1, endLine := 12 } rfl (by decide) (by decide)

lemma functionConn_mono (blocks : List CodeBlock) (t1 t2 : ℚ) (h : t1 ≤ t2) (i j : ℕ)
    (hc : functionConn blocks t2 i j = true) : functionConn blocks t1 i j = true := by
  simp only [functionConn, decide_eq_true_eq] at hc ⊢
  exact le_trans h hc

lemma analyzeFunctionCohesion_loc_none (t : ℚ) (minLen : ℤ) (fctx : FunctionContext)
    (h : fctx.loc = none) : analyzeFunctionCohesion t minLen fctx = defaultCohesionResult := by
  unfold analyzeFunctionCohesion
  split
  · rfl
  · rename_i l hloc
    rw [h] at hloc
    cases hloc

/-- Claim C6: raising the shared-variable threshold never decreases the
component count of the analysis of a fixed function unit. -/
theorem C6_threshold_monotone (minLen : ℤ) (fctx : FunctionContext) (t1 t2 : ℚ)
    (h : t1 ≤ t2) :
    (analyzeFunctionCohesion t1 minLen fctx).componentCount ≤
      (analyzeFunctionCohesion t2 minLen fctx).componentCount := by
  cases hloc : fctx.loc with
  | none =>
    rw [analyzeFunctionCohesion_loc_none t1 minLen fctx hloc,
      analyzeFunctionCohesion_loc_none t2 minLen fctx hloc]
  | some l =>
    by_cases hlen : l.endLine - l.startLine + 1 < minLen
    · rw [analyzeFunctionCohesion_gate_fail t1 minLen fctx (Or.inl ⟨l, hloc, hlen⟩),
        analyzeFunctionCohesion_gate_fail t2 minLen fctx (Or.inl ⟨l, hloc, hlen⟩)]
    · by_cases hblk : fctx.blocks.length < 2
      · rw [analyzeFunctionCohesion_gate_fail t1 minLen fctx (Or.inr hblk),
          analyzeFunctionCohesion_gate_fail t2 minLen fctx (Or.inr hblk)]
      · rw [analyzeFunctionCohesion_componentCount t1 minLen fctx l hloc (not_lt.mp hlen)
            (not_lt.mp hblk),
          analyzeFunctionCohesion_componentCount t2 minLen fctx l hloc (not_lt.mp hlen)
            (not_lt.mp hblk)]
        exact Graph.componentsOf_buildEdges_mono (List.range fctx.blocks.length)
          (functionConn fctx.blocks t1) (functionConn fctx.blocks t2)
          (functionConn_mono fctx.blocks t1 t2 h)

/-- Witness for C6 at the concrete chain function and thresholds 30 and 40. -/
theorem C6_witness :
    (analyzeFunctionCohesion 30 10 chainCtx).componentCount ≤
      (analyzeFunctionCohesion 40 10 chainCtx).componentCount :=
  C6_threshold_monotone 10 chainCtx 30 40 (by norm_num)

/-! ### Claim C3: verdict is component count greater than one, chains cohere -/

lemma calculateOverlapPercentage_ge_iff (block1 block2 : CodeBlock) (t : ℚ) :
    calculateOverlapPercentage block1 block2 ≥ t ↔
      (if (block1.vars.reads ∪ block1.vars.writes).card = 0 ∨
          (block2.vars.reads ∪ block2.vars.writes).card = 0 then (100 : ℚ) ≥ t
       else t * (((block1.vars.reads ∪ block1.vars.writes) ∪
              (block2.vars.reads ∪ block2.vars.writes)).card : ℚ) ≤
            (((block1.vars.reads ∪ block1.vars.writes).filter
                (fun v => v ∈ block2.vars.reads ∪ block2.vars.writes)).card : ℚ) * 100) := by
  by_cases hc : (block1.vars.reads ∪ block1.vars.writes).card = 0 ∨
      (block2.vars.reads ∪ block2.vars.writes).card = 0
  · simp only [calculateOverlapPercentage, if_pos hc, ge_iff_le]
  · simp only [calculateOverlapPercentage, if_neg hc, ge_iff_le]
    push_neg at hc
    have h1 : 0 < (block1.vars.reads ∪ block1.vars.writes).card := Nat.pos_of_ne_zero hc.1
    have hpos : (0 : ℚ) < (((block1.vars.reads ∪ block1.vars.writes) ∪
        (block2.vars.reads ∪ block2.vars.writes)).card : ℚ) := by
      have : 0 < ((block1.vars.reads ∪ block1.vars.writes) ∪
          (block2.vars.reads ∪ block2.vars.writes)).card := by
        refine Finset.card_pos.mpr ?_
        obtain ⟨x, hx⟩ := Finset.card_pos.mp h1
        exact ⟨x, Finset.mem_union_left _ hx⟩
      exact_mod_cast this
    rw [div_mul_eq_mul_div, le_div_iff₀ hpos]

lemma chain_conn_01 : functionConn [blkA, blkB, blkC] 30 0 1 = true := by
  rw [show (true : Bool) = decide True from rfl, functionConn, decide_eq_decide]
  rw [iff_true, ge_iff_le, ← ge_iff_le, calculateOverlapPercentage_ge_iff]
  rw [show ([blkA, blkB, blkC] : List CodeBlock).getD 0 default = blkA from rfl,
      show ([blkA, blkB, blkC] : List CodeBlock).getD 1 default = blkB from rfl]
  rw [if_neg (by decide)]
  rw [show ((blkA.vars.reads ∪ blkA.vars.writes) ∪ (blkB.vars.reads ∪ blkB.vars.writes)).card = 3
        from by decide,
      show ((blkA.vars.reads ∪ blkA.vars.writes).filter
          (fun v => v ∈ blkB.vars.reads ∪ blkB.vars.writes)).card = 1 from by decide]
  norm_num

lemma chain_conn_12 : functionConn [blkA, blkB, blkC] 30 1 2 = true := by
  rw [show (true : Bool) = decide True from rfl, functionConn, decide_eq_decide]
  rw [iff_true, ge_iff_le, ← ge_iff_le, calculateOverlapPercentage_ge_iff]
  rw [show ([blkA, blkB, blkC] : List CodeBlock).getD 1 default = blkB from rfl,
      show ([blkA, blkB, blkC] : List CodeBlock).getD 2 default = blkC from rfl]
  rw [if_neg (by decide)]
  rw [show ((blkB.vars.reads ∪ blkB.vars.writes) ∪ (blkC.vars.reads ∪ blkC.vars.writes)).card = 3
        from by decide,
      show ((blkB.vars.reads ∪ blkB.vars.writes).filter
          (fun v => v ∈ blkC.vars.reads ∪ blkC.vars.writes)).card = 1 from by decide]
  norm_num

lemma chain_conn_02 : functionConn [blkA, blkB, blkC] 30 0 2 = false := by
  rw [show (false : Bool) = decide False from rfl, functionConn, decide_eq_decide]
  rw [iff_false, ge_iff_le, ← ge_iff_le, calculateOverlapPercentage_ge_iff]
  rw [show ([blkA, blkB, blkC] : List CodeBlock).getD 0 default = blkA from rfl,
      show ([blkA, blkB, blkC] : List CodeBlock).getD 2 default = blkC from rfl]
  rw [if_neg (by decide)]
  rw [show ((blkA.vars.reads ∪ blkA.vars.writes) ∪ (blkC.vars.reads ∪ blkC.vars.writes)).card = 4
        from by decide,
      show ((blkA.vars.reads ∪ blkA.vars.writes).filter
          (fun v => v ∈ blkC.vars.reads ∪ blkC.vars.writes)).card = 0 from by decide]
  norm_num

lemma chain_components_eval : functionComponents chainCtx.blocks 30 = [[0, 1, 2]] := by
  have h : chainCtx.blocks = [blkA, blkB, blkC] := rfl
  rw [h]
  simp [functionComponents, functionEdges, Graph.buildEdges, Graph.pairIdx, Graph.componentsOf,
    Graph.componentsGo, Graph.bfsGo, Graph.enqueueNew, Graph.adjOf, Graph.initEdges,
    Graph.addEdge, List.range_succ, chain_conn_01, chain_conn_12, chain_conn_02]

lemma chain_componentCount : (analyzeFunctionCohesion 30 10 chainCtx).componentCount = 1 := by
  rw [analyzeFunctionCohesion_componentCount 30 10 chainCtx { startLine := 1, endLine := 12 }
    rfl (by decide) (by decide), chain_components_eval]
  rfl

/-- Claim C3: for a finalized function unit passing both gates, a finding is
emitted precisely when the component count exceeds one; in particular, the
three chained blocks A, B, C (A-B and B-C above threshold, A-C sharing
nothing) form a single component and produce no finding. -/
theorem C3_report_iff_componentCount (t : ℚ) (minLen : ℤ) (st : RuleState)
    (fctx : FunctionContext) (rest : List FunctionContext) (l : Loc)
    (hst : st.functionStack = fctx :: rest) (hloc : fctx.loc = some l)
    (hlen : minLen ≤ l.endLine - l.startLine + 1) (hblk : 2 ≤ fctx.blocks.length) :
    ((ruleStep t minLen st .funcExit).reports ≠ st.reports ↔
      1 < (analyzeFunctionCohesion t minLen fctx).componentCount) ∧
    (analyzeFunctionCohesion 30 10 chainCtx).componentCount = 1 ∧
    (ruleStep 30 10 (RuleState.mk [chainCtx] [VariableUsage.mk ∅ ∅] []) .funcExit).reports =
      [] := by
  refine ⟨?_, chain_componentCount, ?_⟩
  · rw [ruleStep_funcExit_reports t minLen st fctx rest hst,
      analyzeFunctionCohesion_isLowCohesion t minLen fctx l hloc hlen hblk,
      analyzeFunctionCohesion_componentCount t minLen fctx l hloc hlen hblk]
    by_cases hc : 1 < (functionComponents fctx.blocks t).length
    · rw [if_pos (by simpa using hc)]
      simp only [hc, iff_true]
      intro heq
      have hlen2 := congrArg List.length heq
      simp at hlen2
    · rw [if_neg (by simpa using hc)]
      simp [hc]
  · rw [ruleStep_funcExit_reports 30 10 (RuleState.mk [chainCtx] [VariableUsage.mk ∅ ∅] [])
      chainCtx [] rfl]
    rw [analyzeFunctionCohesion_isLowCohesion 30 10 chainCtx { startLine := 1, endLine := 12 }
      rfl (by decide) (by decide), chain_components_eval]
    simp

/-- Witness for C3 at the concrete chain state. -/
theorem C3_witness :
    ((ruleStep 30 10 (RuleState.mk [chainCtx] [VariableUsage.mk ∅ ∅] []) .funcExit).reports ≠
        ([] : List Report) ↔
      1 < (analyzeFunctionCohesion 30 10 chainCtx).componentCount) ∧
    (analyzeFunctionCohesion 30 10 chainCtx).componentCount = 1 :=
  ⟨(C3_report_iff_componentCount 30 10 (RuleState.mk [chainCtx] [VariableUsage.mk ∅ ∅] [])
      chainCtx [] { startLine := 1, endLine := 12 } rfl rfl (by decide) (by decide)).1,
   (C3_report_iff_componentCount 30 10 (RuleState.mk [chainCtx] [VariableUsage.mk ∅ ∅] [])
      chainCtx [] { startLine := 1, endLine := 12 } rfl rfl (by decide) (by decide)).2.1⟩

/-- Witness for C9: on a state with one open function and one nested block, a
block exit pops exactly one accumulator frame. -/
theorem C9_witness :
    (ruleStep 30 10 (RuleState.mk [FunctionContext.mk none [] ∅]
        [VariableUsage.mk ∅ ∅, VariableUsage.mk ∅ ∅] []) (.blockExit "if" none)).blockStack =
      (RuleState.mk [FunctionContext.mk none [] ∅]
        [VariableUsage.mk ∅ ∅, VariableUsage.mk ∅ ∅] []).blockStack.tail :=
  (C9_innermost_attribution 30 10 (RuleState.mk [FunctionContext.mk none [] ∅]
      [VariableUsage.mk ∅ ∅, VariableUsage.mk ∅ ∅] []) "x" .other "if" none).2.1
    (by decide) (by decide)

end CodeComplete
namespace CodeComplete

/-! ### Claim C1: the class-level edge condition -/

lemma nodup_getD_inj (l : List String) (hn : l.Nodup) {i j : ℕ} (hi : i < l.length)
    (hj : j < l.length) (h : l.getD i "" = l.getD j "") : i = j := by
  rw [List.getD_eq_getElem _ _ hi, List.getD_eq_getElem _ _ hj] at h
  exact (List.Nodup.getElem_inj_iff hn).mp h

/-- Counterexample to claim C1: in c1Ctx the two methods share one member out
of a three-element union, so their Jaccard score is 100/3 < 40 and neither
calls the other, yet the code draws an edge between them. -/
theorem C1_counterexample :
    ("m2" ∈ Graph.adjOf (classEdges c1Ctx) "m1") ∧
    ¬ specClassEdge 40 (lookupMethod c1Ctx.methods "m1") (lookupMethod c1Ctx.methods "m2")
        "m1" "m2" := by
  constructor
  · have hconn : classConn c1Ctx.methods (c1Ctx.methods.map Prod.fst) 0 1 = true := by decide
    exact (Graph.mem_adjOf_buildEdges (c1Ctx.methods.map Prod.fst)
      (classConn c1Ctx.methods (c1Ctx.methods.map Prod.fst)) "m1" "m2").mpr
      ⟨0, 1, by decide, by decide, hconn, Or.inl ⟨by decide, by decide⟩⟩
  · intro h
    rcases h with h | h | h
    · have hm1 : lookupMethod c1Ctx.methods "m1" = {"a", "b", "c"} := by decide
      have hm2 : lookupMethod c1Ctx.methods "m2" = {"a"} := by decide
      rw [hm1, hm2, specOverlapScore, if_neg (by decide)] at h
      rw [show (({"a", "b", "c"} : Finset String) ∩ {"a"}).card = 1 from by decide,
          show (({"a", "b", "c"} : Finset String) ∪ {"a"}).card = 3 from by decide] at h
      norm_num at h
    · exact absurd h (by decide)
    · exact absurd h (by decide)

lemma lookupMethod_map_getD (methods : List (String × Finset String))
    (hn : (methods.map Prod.fst).Nodup) (i : ℕ) (hi : i < methods.length) :
    lookupMethod methods ((methods.map Prod.fst).getD i "") = (methods.getD i ("", ∅)).2 := by
  induction methods generalizing i with
  | nil => exact absurd hi (by simp)
  | cons p ps ih =>
    cases i with
    | zero =>
      unfold lookupMethod
      rw [show ((p :: ps).map Prod.fst).getD 0 "" = p.1 from rfl,
        List.find?_cons_of_pos _ (by simp)]
      rfl
    | succ i2 =>
      have hi2 : i2 < ps.length := by simpa using hi
      have hkey : ((p :: ps).map Prod.fst).getD (i2 + 1) "" = (ps.map Prod.fst).getD i2 "" :=
        rfl
      have hkeymem : (ps.map Prod.fst).getD i2 "" ∈ ps.map Prod.fst := by
        rw [List.getD_eq_getElem _ _ (by simpa using hi2)]
        exact List.getElem_mem _
      have hn2 : (p.1 :: ps.map Prod.fst).Nodup := by simpa using hn
      have hne : p.1 ≠ (ps.map Prod.fst).getD i2 "" := by
        intro h
        exact (List.nodup_cons.mp hn2).1 (h ▸ hkeymem)
      unfold lookupMethod
      rw [hkey, List.find?_cons_of_neg _ (by simp only [decide_eq_true_eq]; exact hne)]
      exact ih (List.nodup_cons.mp hn2).2 i2 hi2

/-- Claim C1 amended: for distinct method positions i < j of a class with
duplicate-free method names, the overlap graph has the edge between them
precisely when the two usedMembers sets share some member, or method i uses
the name of method j, or method j uses the name of method i — there is no
Jaccard-threshold condition in the class-level rule. -/
theorem C1_amended_class_edge_iff (ctx : ClassContext) (i j : ℕ)
    (hn : (ctx.methods.map Prod.fst).Nodup) (hij : i < j) (hj : j < ctx.methods.length) :
    ((ctx.methods.map Prod.fst).getD j "" ∈
        Graph.adjOf (classEdges ctx) ((ctx.methods.map Prod.fst).getD i "")) ↔
      (0 < (lookupMethod ctx.methods ((ctx.methods.map Prod.fst).getD i "") ∩
          lookupMethod ctx.methods ((ctx.methods.map Prod.fst).getD j "")).card ∨
        (ctx.methods.map Prod.fst).getD j "" ∈
          lookupMethod ctx.methods ((ctx.methods.map Prod.fst).getD i "") ∨
        (ctx.methods.map Prod.fst).getD i "" ∈
          lookupMethod ctx.methods ((ctx.methods.map Prod.fst).getD j "")) := by
  have hlen : (ctx.methods.map Prod.fst).length = ctx.methods.length := by simp
  have hchar := Graph.mem_adjOf_buildEdges (ctx.methods.map Prod.fst)
    (classConn ctx.methods (ctx.methods.map Prod.fst))
    ((ctx.methods.map Prod.fst).getD i "") ((ctx.methods.map Prod.fst).getD j "")
  have hconn_iff : ∀ i' j' : ℕ, classConn ctx.methods (ctx.methods.map Prod.fst) i' j' = true ↔
      (0 < (lookupMethod ctx.methods ((ctx.methods.map Prod.fst).getD i' "") ∩
          lookupMethod ctx.methods ((ctx.methods.map Prod.fst).getD j' "")).card ∨
        (ctx.methods.map Prod.fst).getD j' "" ∈
          lookupMethod ctx.methods ((ctx.methods.map Prod.fst).getD i' "") ∨
        (ctx.methods.map Prod.fst).getD i' "" ∈
          lookupMethod ctx.methods ((ctx.methods.map Prod.fst).getD j' "")) := by
    intro i' j'
    simp only [classConn, Bool.or_eq_true, decide_eq_true_eq, Finset.filter_mem_eq_inter]
    tauto
  constructor
  · intro h
    have h2 : (ctx.methods.map Prod.fst).getD j "" ∈
        Graph.adjOf (Graph.buildEdges (ctx.methods.map Prod.fst)
          (classConn ctx.methods (ctx.methods.map Prod.fst)))
          ((ctx.methods.map Prod.fst).getD i "") := h
    obtain ⟨i', j', hij', hj', hconn, hd⟩ := hchar.mp h2
    rcases hd with ⟨ha, hb⟩ | ⟨ha, hb⟩
    · have hii : i' = i :=
        nodup_getD_inj _ hn (lt_of_lt_of_le hij' (le_of_lt hj')) (hlen ▸ lt_trans hij hj) ha
      have hjj : j' = j := nodup_getD_inj _ hn hj' (hlen ▸ hj) hb
      rw [hii, hjj] at hconn
      exact (hconn_iff i j).mp hconn
    · have hii : j' = i :=
        nodup_getD_inj _ hn hj' (hlen ▸ lt_trans hij hj) ha
      have hjj : i' = j :=
        nodup_getD_inj _ hn (lt_of_lt_of_le hij' (le_of_lt hj')) (hlen ▸ hj) hb
      omega
  · intro h
    exact hchar.mpr ⟨i, j, hij, hlen ▸ hj, (hconn_iff i j).mpr h, Or.inl ⟨rfl, rfl⟩⟩

/-- Witness for the amended C1 at the concrete two-method class. -/
theorem C1_amended_witness :
    ((c1Ctx.methods.map Prod.fst).getD 1 "" ∈
        Graph.adjOf (classEdges c1Ctx) ((c1Ctx.methods.map Prod.fst).getD 0 "")) ↔
      (0 < (lookupMethod c1Ctx.methods ((c1Ctx.methods.map Prod.fst).getD 0 "") ∩
          lookupMethod c1Ctx.methods ((c1Ctx.methods.map Prod.fst).getD 1 "")).card ∨
        (c1Ctx.methods.map Prod.fst).getD 1 "" ∈
          lookupMethod c1Ctx.methods ((c1Ctx.methods.map Prod.fst).getD 0 "") ∨
        (c1Ctx.methods.map Prod.fst).getD 0 "" ∈
          lookupMethod c1Ctx.methods ((c1Ctx.methods.map Prod.fst).getD 1 "")) :=
  C1_amended_class_edge_iff c1Ctx 0 1 (by decide) (by decide) (by decide)

end CodeComplete
